/-
Verification of the holdings-tracking core (Inventory / Position / Lot /
Amount) of the beancount repository, as described by its specification.

The repository snapshot contains the test suite of the Inventory class
(`src/python/beancount/core/inventory_test.py`) but not the implementation
modules (`beancount/core/inventory.py`, `beancount/core/position.py`,
`beancount/core/amount.py`).  Every operation below is therefore modelled
from the specification, as indicated by the doc comments.
-/
import Mathlib

namespace Beancount

/-- Modelled from the spec: the exact-decimal number type (the missing
`beancount.core.amount` module wraps Python `decimal.Decimal`).  A value is
`man / 10 ^ exp`: an integer mantissa with a count of fractional digits.
Textual trailing zeros are representable (`⟨1000, 2⟩` prints `10.00`), and
equality of values is numeric, not structural. -/
structure Decimal where
  man : Int
  exp : Nat
deriving DecidableEq

/-- The exact rational value denoted by a `Decimal`. -/
def Decimal.toRat (d : Decimal) : ℚ :=
  (d.man : ℚ) / (10 : ℚ) ^ d.exp

/-- Modelled from the spec: the zero decimal. -/
def Decimal.zero : Decimal := ⟨0, 0⟩

/-- Modelled from the spec: exact decimal addition, keeping the larger
number of fractional digits (as Python `Decimal` addition does). -/
def Decimal.add (a b : Decimal) : Decimal :=
  ⟨a.man * (10 : Int) ^ (max a.exp b.exp - a.exp)
    + b.man * (10 : Int) ^ (max a.exp b.exp - b.exp), max a.exp b.exp⟩

/-- Modelled from the spec: exact decimal negation. -/
def Decimal.neg (a : Decimal) : Decimal := ⟨-a.man, a.exp⟩

/-- Modelled from the spec: exact decimal multiplication (used for cost
valuation). -/
def Decimal.mul (a b : Decimal) : Decimal := ⟨a.man * b.man, a.exp + b.exp⟩

/-- Modelled from the spec: numeric (value) equality of decimals, the
equality Python `Decimal` uses: `10.00 == 10`. -/
def Decimal.deq (a b : Decimal) : Bool :=
  decide (a.man * (10 : Int) ^ b.exp = b.man * (10 : Int) ^ a.exp)

/-- Modelled from the spec: value negativity test (`x < 0`). -/
def Decimal.isNeg (a : Decimal) : Bool := decide (a.man < 0)

/-- Modelled from the spec: `|a| <= t` on decimal values, the comparison
used by the smallness test. -/
def Decimal.absLe (a t : Decimal) : Bool :=
  decide ((a.man.natAbs : Int) * (10 : Int) ^ t.exp ≤ t.man * (10 : Int) ^ a.exp)

theorem Decimal.pow_ten_pos (e : Nat) : (0 : ℚ) < (10 : ℚ) ^ e := by positivity

theorem Decimal.toRat_scale (m : Int) (ee e : Nat) (h : ee ≤ e) :
    ((m * (10 : Int) ^ (e - ee) : Int) : ℚ) / (10 : ℚ) ^ e = (m : ℚ) / (10 : ℚ) ^ ee := by
  have h10 : ((10 : Int) : ℚ) = (10 : ℚ) := by norm_num
  push_cast
  rw [div_eq_div_iff (ne_of_gt (pow_ten_pos e)) (ne_of_gt (pow_ten_pos ee))]
  rw [mul_assoc, ← pow_add, Nat.sub_add_cancel h]

theorem Decimal.toRat_add (a b : Decimal) :
    (a.add b).toRat = a.toRat + b.toRat := by
  unfold Decimal.add Decimal.toRat
  simp only
  push_cast
  rw [add_div]
  have ha := toRat_scale a.man a.exp (max a.exp b.exp) (le_max_left _ _)
  have hb := toRat_scale b.man b.exp (max a.exp b.exp) (le_max_right _ _)
  push_cast at ha hb
  rw [ha, hb]

theorem Decimal.toRat_neg (a : Decimal) : a.neg.toRat = -a.toRat := by
  unfold Decimal.neg Decimal.toRat
  push_cast
  rw [neg_div]

theorem Decimal.toRat_mul (a b : Decimal) :
    (a.mul b).toRat = a.toRat * b.toRat := by
  unfold Decimal.mul Decimal.toRat
  simp only
  push_cast
  rw [pow_add]
  rw [div_mul_div_comm]

theorem Decimal.toRat_zero : Decimal.zero.toRat = 0 := by
  unfold Decimal.zero Decimal.toRat
  norm_num

theorem Decimal.deq_iff (a b : Decimal) :
    a.deq b = true ↔ a.toRat = b.toRat := by
  unfold Decimal.deq Decimal.toRat
  rw [decide_eq_true_iff]
  rw [div_eq_div_iff (ne_of_gt (pow_ten_pos a.exp)) (ne_of_gt (pow_ten_pos b.exp))]
  constructor
  · intro h
    exact_mod_cast congrArg (fun z : Int => (z : ℚ)) h
  · intro h
    exact_mod_cast h

theorem Decimal.isNeg_iff (a : Decimal) :
    a.isNeg = true ↔ a.toRat < 0 := by
  unfold Decimal.isNeg Decimal.toRat
  rw [decide_eq_true_iff]
  rw [div_neg_iff]
  constructor
  · intro h
    right
    constructor
    · exact_mod_cast h
    · exact pow_ten_pos a.exp
  · rintro (⟨_, h2⟩ | ⟨h1, _⟩)
    · exact absurd h2 (not_lt.mpr (le_of_lt (pow_ten_pos a.exp)))
    · exact_mod_cast h1

theorem Decimal.absLe_iff (a t : Decimal) :
    a.absLe t = true ↔ |a.toRat| ≤ t.toRat := by
  unfold Decimal.absLe Decimal.toRat
  rw [decide_eq_true_iff]
  rw [abs_div, abs_of_pos (pow_ten_pos a.exp)]
  rw [div_le_div_iff (pow_ten_pos a.exp) (pow_ten_pos t.exp)]
  rw [Int.natCast_natAbs]
  constructor
  · intro h
    have h2 : ((|a.man| : Int) : ℚ) * (10 : ℚ) ^ t.exp ≤ ((t.man : Int) : ℚ) * (10 : ℚ) ^ a.exp := by
      exact_mod_cast h
    rw [Int.cast_abs] at h2
    exact h2
  · intro h
    rw [← Int.cast_abs] at h
    exact_mod_cast h

theorem Decimal.deq_refl (a : Decimal) : a.deq a = true := by
  rw [deq_iff]

theorem Decimal.deq_symm {a b : Decimal} (h : a.deq b = true) : b.deq a = true := by
  rw [deq_iff] at h ⊢
  exact h.symm

theorem Decimal.deq_trans {a b c : Decimal} (h1 : a.deq b = true)
    (h2 : b.deq c = true) : a.deq c = true := by
  rw [deq_iff] at h1 h2 ⊢
  exact h1.trans h2

theorem Decimal.zero_add (d : Decimal) : Decimal.zero.add d = d := by
  unfold Decimal.zero Decimal.add
  simp

/-- Modelled from the spec: a calendar date (`datetime.date`), compared by
calendar value. -/
structure Date where
  year : Nat
  month : Nat
  day : Nat
deriving DecidableEq

/-- Modelled from the spec: an `Amount` is an exact-decimal number paired
with a currency string (the missing `beancount.core.amount.Amount`). -/
structure Amount where
  number : Decimal
  currency : String
deriving DecidableEq

/-- Modelled from the spec: `Amount` equality — both fields equal, the
number by decimal (numeric) equality. -/
def Amount.beq (a b : Amount) : Bool :=
  a.number.deq b.number && a.currency == b.currency

/-- Modelled from the spec: negation of an `Amount`. -/
def Amount.neg (a : Amount) : Amount := ⟨a.number.neg, a.currency⟩

/-- Modelled from the spec: a `Lot` is an immutable key — currency,
optional acquisition-cost amount, optional acquisition date (the missing
`beancount.core.position.Lot`).  A lot with a cost or a date present is
called booked; one with both absent is unbooked. -/
structure Lot where
  currency : String
  cost : Option Amount
  acqDate : Option Date
deriving DecidableEq

/-- Whether a lot is booked (cost or acquisition date present). -/
def Lot.booked (l : Lot) : Bool := l.cost.isSome || l.acqDate.isSome

/-- Modelled from the spec: equality of optional cost amounts (absent is
distinct from any present cost). -/
def costBeq : Option Amount → Option Amount → Bool
  | none, none => true
  | some a, some b => a.beq b
  | _, _ => false

/-- Modelled from the spec: structural `Lot` equality on all three fields,
with amounts compared numerically and dates by calendar value. -/
def Lot.beq (a b : Lot) : Bool :=
  a.currency == b.currency && costBeq a.cost b.cost && a.acqDate == b.acqDate

/-- Modelled from the spec: a `Position` is a `Lot` with a signed decimal
quantity (the missing `beancount.core.position.Position`). -/
structure Position where
  lot : Lot
  number : Decimal
deriving DecidableEq

/-- Modelled from the spec: `Position` equality — same lot and same
quantity (numerically). -/
def Position.beq (a b : Position) : Bool :=
  a.lot.beq b.lot && a.number.deq b.number

theorem amountBeq_refl (a : Amount) : a.beq a = true := by
  unfold Amount.beq
  rw [Decimal.deq_refl]
  simp

theorem amountBeq_symm {a b : Amount} (h : a.beq b = true) : b.beq a = true := by
  unfold Amount.beq at h ⊢
  rw [Bool.and_eq_true] at h ⊢
  refine ⟨Decimal.deq_symm h.1, ?_⟩
  have := h.2
  simp only [beq_iff_eq] at this ⊢
  exact this.symm

theorem amountBeq_trans {a b c : Amount} (h1 : a.beq b = true)
    (h2 : b.beq c = true) : a.beq c = true := by
  unfold Amount.beq at h1 h2 ⊢
  rw [Bool.and_eq_true] at h1 h2 ⊢
  refine ⟨Decimal.deq_trans h1.1 h2.1, ?_⟩
  have e1 := h1.2
  have e2 := h2.2
  simp only [beq_iff_eq] at e1 e2 ⊢
  exact e1.trans e2

theorem costBeq_refl (a : Option Amount) : costBeq a a = true := by
  cases a with
  | none => rfl
  | some x => exact amountBeq_refl x

theorem costBeq_symm {a b : Option Amount} (h : costBeq a b = true) :
    costBeq b a = true := by
  cases a with
  | none =>
    cases b with
    | none => rfl
    | some y => exact absurd h (by simp [costBeq])
  | some x =>
    cases b with
    | none => exact absurd h (by simp [costBeq])
    | some y => exact amountBeq_symm h

theorem costBeq_trans {a b c : Option Amount} (h1 : costBeq a b = true)
    (h2 : costBeq b c = true) : costBeq a c = true := by
  cases a with
  | none =>
    cases b with
    | none => exact h2
    | some y => exact absurd h1 (by simp [costBeq])
  | some x =>
    cases b with
    | none => exact absurd h1 (by simp [costBeq])
    | some y =>
      cases c with
      | none => exact absurd h2 (by simp [costBeq])
      | some z => exact amountBeq_trans h1 h2

theorem lotBeq_refl (l : Lot) : l.beq l = true := by
  unfold Lot.beq
  rw [costBeq_refl]
  simp

theorem lotBeq_symm {a b : Lot} (h : a.beq b = true) : b.beq a = true := by
  unfold Lot.beq at h ⊢
  rw [Bool.and_eq_true, Bool.and_eq_true] at h ⊢
  refine ⟨⟨?_, costBeq_symm h.1.2⟩, ?_⟩
  · have := h.1.1
    simp only [beq_iff_eq] at this ⊢
    exact this.symm
  · have := h.2
    simp only [beq_iff_eq] at this ⊢
    exact this.symm

theorem lotBeq_trans {a b c : Lot} (h1 : a.beq b = true)
    (h2 : b.beq c = true) : a.beq c = true := by
  unfold Lot.beq at h1 h2 ⊢
  rw [Bool.and_eq_true, Bool.and_eq_true] at h1 h2 ⊢
  refine ⟨⟨?_, costBeq_trans h1.1.2 h2.1.2⟩, ?_⟩
  · have e1 := h1.1.1
    have e2 := h2.1.1
    simp only [beq_iff_eq] at e1 e2 ⊢
    exact e1.trans e2
  · have e1 := h1.2
    have e2 := h2.2
    simp only [beq_iff_eq] at e1 e2 ⊢
    exact e1.trans e2

theorem positionBeq_refl (p : Position) : p.beq p = true := by
  unfold Position.beq
  rw [lotBeq_refl, Decimal.deq_refl]
  rfl

/-- Lots that are `beq`-equal carry equal currency strings. -/
theorem Lot.beq_currency {a b : Lot} (h : a.beq b = true) :
    a.currency = b.currency := by
  unfold Lot.beq at h
  rw [Bool.and_eq_true, Bool.and_eq_true] at h
  have := h.1.1
  simpa using this

/-- Modelled from the spec: an `Inventory` is a container of positions
keyed by lot (the missing `beancount.core.inventory.Inventory`), stored in
insertion order with a linear-scan lookup. -/
structure Inventory where
  positions : List Position
deriving DecidableEq

/-- Modelled from the spec: the empty inventory. -/
def Inventory.empty : Inventory := ⟨[]⟩

/-- Modelled from the spec: `get_position` — exact lot match only, by a
linear scan over the stored positions. -/
def Inventory.get_position (inv : Inventory) (L : Lot) : Option Position :=
  inv.positions.find? (fun p => p.lot.beq L)

/-- The stored quantity for a lot, zero when no position exists for it
(step 2 of the booking algorithm). -/
def Inventory.priorNumber (inv : Inventory) (L : Lot) : Decimal :=
  match inv.get_position L with
  | some p => p.number
  | none => Decimal.zero

/-- Replace the first position whose lot equals `L` with `⟨L, n⟩`, or
append `⟨L, n⟩` when no position matches. -/
def storeList : List Position → Lot → Decimal → List Position
  | [], L, n => [⟨L, n⟩]
  | p :: ps, L, n => if p.lot.beq L then ⟨L, n⟩ :: ps else p :: storeList ps L n

/-- Modelled from the spec: step 5 of the booking algorithm — store
`Position(L, n)` replacing any prior entry for `L`. -/
def Inventory.store (inv : Inventory) (L : Lot) (n : Decimal) : Inventory :=
  ⟨storeList inv.positions L n⟩

/-- The unconditional merge: store `prior + n` under lot `L` (what `add`
does once the booking check has passed). -/
def Inventory.addPure (inv : Inventory) (L : Lot) (n : Decimal) : Inventory :=
  inv.store L ((inv.priorNumber L).add n)

/-- Modelled from the spec: the booking failure (`BookingError`, raised as
a `ValueError` in the tests). -/
inductive BookingError where
  | wouldReduceLotBelowZero
deriving DecidableEq

/-- Modelled from the spec: the booking algorithm of `Inventory.add` —
build the candidate lot, compute `prior + amount.number`, fail when a
booked lot would go negative without the override, otherwise store. -/
def Inventory.add (inv : Inventory) (amount : Amount) (cost : Option Amount)
    (adate : Option Date) (allowNegative : Bool) : Except BookingError Inventory :=
  if (Lot.mk amount.currency cost adate).booked
      && ((inv.priorNumber ⟨amount.currency, cost, adate⟩).add amount.number).isNeg
      && !allowNegative then
    Except.error BookingError.wouldReduceLotBelowZero
  else
    Except.ok (inv.store ⟨amount.currency, cost, adate⟩
      ((inv.priorNumber ⟨amount.currency, cost, adate⟩).add amount.number))

/-- Modelled from the spec: `add_position` routes through `add` with the
position's lot fields. -/
def Inventory.add_position (inv : Inventory) (p : Position)
    (allowNegative : Bool) : Except BookingError Inventory :=
  inv.add ⟨p.number, p.lot.currency⟩ p.lot.cost p.lot.acqDate allowNegative

/-- Modelled from the spec: construction from an initial list of
positions, merged by lot (summing quantities) at construction time. -/
def Inventory.ofPositions (l : List Position) : Inventory :=
  l.foldl (fun inv p => inv.addPure p.lot p.number) Inventory.empty

/-- Modelled from the spec: `update` — apply `add_position` (with the
default `allow_negative = false`) for every position of `other`. -/
def Inventory.update (inv other : Inventory) : Except BookingError Inventory :=
  other.positions.foldlM (fun acc p => acc.add_position p false) inv

/-- Modelled from the spec: `negate` — every quantity negated, lots
(including costs) unchanged. -/
def Inventory.negate (inv : Inventory) : Inventory :=
  ⟨inv.positions.map (fun p => ⟨p.lot, p.number.neg⟩)⟩

/-- Modelled from the spec: `is_empty`. -/
def Inventory.is_empty (inv : Inventory) : Bool := inv.positions.isEmpty

/-- Modelled from the spec: `size` — the number of stored positions
(distinct lots). -/
def Inventory.size (inv : Inventory) : Nat := inv.positions.length

/-- Sum of a list of decimals. -/
def sumDec (l : List Decimal) : Decimal := l.foldl Decimal.add Decimal.zero

/-- Modelled from the spec: `get_amount` — the sum of the quantities of
all stored positions of the given currency. -/
def Inventory.get_amount (inv : Inventory) (c : String) : Amount :=
  ⟨sumDec (inv.positions.filterMap
    (fun p => if p.lot.currency == c then some p.number else none)), c⟩

/-- The distinct elements of a list in order of first occurrence. -/
def dedupFirstAux : List String → List String → List String
  | _, [] => []
  | seen, c :: cs =>
    if seen.contains c then dedupFirstAux seen cs
    else c :: dedupFirstAux (c :: seen) cs

/-- The distinct currencies of a position list, in first-occurrence order. -/
def currenciesOf (l : List Position) : List String :=
  dedupFirstAux [] (l.map (fun p => p.lot.currency))

/-- Modelled from the spec: `get_amounts` — one aggregated amount per
distinct currency, in order of first occurrence. -/
def Inventory.get_amounts (inv : Inventory) : List Amount :=
  (currenciesOf inv.positions).map (fun c => inv.get_amount c)

/-- Modelled from the spec: `is_small` — every aggregated per-currency
amount has absolute value at most the threshold. -/
def Inventory.is_small (inv : Inventory) (t : Decimal) : Bool :=
  inv.get_amounts.all (fun a => a.number.absLe t)

/-- Modelled from the spec: `get_positions_with_currency`. -/
def Inventory.get_positions_with_currency (inv : Inventory) (c : String) :
    List Position :=
  inv.positions.filter (fun p => p.lot.currency == c)

/-- The revalued (cost) contribution of one position: `number *
cost.number` of the cost currency when a cost is present, the plain amount
otherwise; the resulting lot is unbooked. -/
def costContribution (p : Position) : Position :=
  match p.lot.cost with
  | some c => ⟨⟨c.currency, none, none⟩, p.number.mul c.number⟩
  | none => ⟨⟨p.lot.currency, none, none⟩, p.number⟩

/-- Modelled from the spec: `get_cost` — revalue every position and merge
the contributions by currency alone (all result lots unbooked), with the
construction-time merge rule. -/
def Inventory.get_cost (inv : Inventory) : Inventory :=
  Inventory.ofPositions (inv.positions.map costContribution)

/-- Modelled from the spec: inventory equality — the two inventories hold
the same set of positions (same lots with the same quantities),
independent of insertion order. -/
def Inventory.beq (a b : Inventory) : Bool :=
  a.positions.all (fun p => b.positions.any (fun q => p.beq q)) &&
  b.positions.all (fun p => a.positions.any (fun q => p.beq q))

/-- The lot-uniqueness invariant: no two stored positions carry equal
lots. -/
def distinctLots : List Position → Bool
  | [] => true
  | p :: ps => ps.all (fun q => !(p.lot.beq q.lot)) && distinctLots ps

/-- Canonical content: the lot-uniqueness invariant holds. -/
def Inventory.canonical (inv : Inventory) : Bool := distinctLots inv.positions

/-- Modelled from the spec: a heap of independently owned inventories,
used to express mutation and frame conditions (`add` mutates in place,
`operator+` is pure). -/
def readInv (h : List Inventory) (r : Nat) : Inventory := h.getD r Inventory.empty

/-- Write a value back to a heap slot. -/
def writeInv (h : List Inventory) (r : Nat) (v : Inventory) : List Inventory :=
  h.set r v

/-- Modelled from the spec: the in-place mutating `add` on a heap slot: on
success the slot is overwritten, on `BookingError` the heap is untouched
(no partial mutation). -/
def addHeap (h : List Inventory) (r : Nat) (amount : Amount)
    (cost : Option Amount) (adate : Option Date) (allowNegative : Bool) :
    List Inventory × Option BookingError :=
  match (readInv h r).add amount cost adate allowNegative with
  | Except.ok v => (writeInv h r v, none)
  | Except.error e => (h, some e)

/-- Modelled from the spec: `operator+` on a heap — clone the left
operand, apply `update` with the right operand to the clone, store the
result in a fresh slot; neither operand's slot is written. -/
def opAddHeap (h : List Inventory) (ra rb : Nat) :
    List Inventory × Option Nat :=
  match Inventory.update (readInv h ra) (readInv h rb) with
  | Except.ok v => (h ++ [v], some h.length)
  | Except.error _ => (h, none)

theorem find_storeList (l : List Position) (L : Lot) (n : Decimal) :
    (storeList l L n).find? (fun p => p.lot.beq L) = some ⟨L, n⟩ := by
  induction l with
  | nil => simp [storeList, List.find?, lotBeq_refl]
  | cons p ps ih =>
    by_cases h : p.lot.beq L = true
    · simp [storeList, h, List.find?, lotBeq_refl]
    · have h' : p.lot.beq L = false := by
        rwa [Bool.not_eq_true] at h
      simp [storeList, h', List.find?, ih]

theorem get_position_store (inv : Inventory) (L : Lot) (n : Decimal) :
    (inv.store L n).get_position L = some ⟨L, n⟩ := by
  unfold Inventory.store Inventory.get_position
  exact find_storeList inv.positions L n

/-- Whether a booking attempt succeeded. -/
def bookingOk : Except BookingError Inventory → Bool
  | Except.ok _ => true
  | Except.error _ => false

theorem add_ok_of_not_neg (inv : Inventory) (c : String) (cost : Option Amount)
    (adate : Option Date) (d : Decimal) (b : Bool)
    (h : ((inv.priorNumber ⟨c, cost, adate⟩).add d).isNeg = false) :
    inv.add ⟨d, c⟩ cost adate b
      = Except.ok (inv.store ⟨c, cost, adate⟩
          ((inv.priorNumber ⟨c, cost, adate⟩).add d)) := by
  simp [Inventory.add, h]

theorem add_ok_of_allow (inv : Inventory) (c : String) (cost : Option Amount)
    (adate : Option Date) (d : Decimal) :
    inv.add ⟨d, c⟩ cost adate true
      = Except.ok (inv.store ⟨c, cost, adate⟩
          ((inv.priorNumber ⟨c, cost, adate⟩).add d)) := by
  simp [Inventory.add]

theorem add_error_of_neg (inv : Inventory) (c : String) (cost : Option Amount)
    (adate : Option Date) (d : Decimal)
    (hbooked : (Lot.mk c cost adate).booked = true)
    (h : ((inv.priorNumber ⟨c, cost, adate⟩).add d).isNeg = true) :
    inv.add ⟨d, c⟩ cost adate false
      = Except.error BookingError.wouldReduceLotBelowZero := by
  simp [Inventory.add, h, hbooked]

/-- C1: on a booked lot `L` holding quantity `q`, adding `d` in `L`'s
currency with `allow_negative = false` fails with a `BookingError` exactly
when `q + d < 0`, and on that failure the heap holding the inventory is
untouched (no partial mutation); with `allow_negative = true` the add
always succeeds and stores `Position(L, q + d)`. -/
theorem claim_C1 (inv : Inventory) (c : String) (cost : Option Amount)
    (adate : Option Date) (d : Decimal)
    (hbooked : (Lot.mk c cost adate).booked = true) :
    (bookingOk (inv.add ⟨d, c⟩ cost adate false) = false
      ↔ ((inv.priorNumber ⟨c, cost, adate⟩).add d).toRat < 0)
    ∧ (∀ (hp : List Inventory) (r : Nat), readInv hp r = inv →
        ((inv.priorNumber ⟨c, cost, adate⟩).add d).toRat < 0 →
        addHeap hp r ⟨d, c⟩ cost adate false
          = (hp, some BookingError.wouldReduceLotBelowZero))
    ∧ inv.add ⟨d, c⟩ cost adate true
        = Except.ok (inv.store ⟨c, cost, adate⟩
            ((inv.priorNumber ⟨c, cost, adate⟩).add d))
    ∧ (inv.store ⟨c, cost, adate⟩
          ((inv.priorNumber ⟨c, cost, adate⟩).add d)).get_position ⟨c, cost, adate⟩
        = some ⟨⟨c, cost, adate⟩, (inv.priorNumber ⟨c, cost, adate⟩).add d⟩ := by
  have hneg := Decimal.isNeg_iff ((inv.priorNumber ⟨c, cost, adate⟩).add d)
  refine ⟨?_, ?_, add_ok_of_allow inv c cost adate d, get_position_store inv _ _⟩
  · by_cases h : ((inv.priorNumber ⟨c, cost, adate⟩).add d).isNeg = true
    · rw [add_error_of_neg inv c cost adate d hbooked h]
      simp only [bookingOk]
      exact iff_of_true trivial (hneg.mp h)
    · have h' : ((inv.priorNumber ⟨c, cost, adate⟩).add d).isNeg = false := by
        rwa [Bool.not_eq_true] at h
      rw [add_ok_of_not_neg inv c cost adate d false h']
      simp only [bookingOk]
      constructor
      · intro hcon
        exact absurd hcon (by simp)
      · intro hlt
        exact absurd (hneg.mpr hlt) (by simp [h'])
  · intro hp r hr hlt
    unfold addHeap
    rw [hr, add_error_of_neg inv c cost adate d hbooked (hneg.mpr hlt)]

/-- C1 witness: a booked GOOG lot holding 10 units rejects a reduction by
12 with `allow_negative = false`. -/
theorem claim_C1_witness :
    ((Lot.mk "GOOG" (some ⟨⟨700, 0⟩, "USD"⟩) none).booked = true)
    ∧ bookingOk ((Inventory.ofPositions
        [⟨⟨"GOOG", some ⟨⟨700, 0⟩, "USD"⟩, none⟩, ⟨10, 0⟩⟩]).add
        ⟨⟨-12, 0⟩, "GOOG"⟩ (some ⟨⟨700, 0⟩, "USD"⟩) none false) = false := by
  refine ⟨by decide, ?_⟩
  have h := claim_C1 (Inventory.ofPositions
      [⟨⟨"GOOG", some ⟨⟨700, 0⟩, "USD"⟩, none⟩, ⟨10, 0⟩⟩])
      "GOOG" (some ⟨⟨700, 0⟩, "USD"⟩) none ⟨-12, 0⟩ (by decide)
  refine h.1.mpr ((Decimal.isNeg_iff _).mp (by decide))

/-- C2: adding an amount on an unbooked lot (no cost, no date) never
fails, for either value of `allow_negative`: the stored quantity becomes
the prior quantity plus the added number, even when negative. -/
theorem claim_C2 (inv : Inventory) (d : Decimal) (c : String)
    (allowNegative : Bool) :
    inv.add ⟨d, c⟩ none none allowNegative
      = Except.ok (inv.store ⟨c, none, none⟩
          ((inv.priorNumber ⟨c, none, none⟩).add d))
    ∧ (inv.store ⟨c, none, none⟩
          ((inv.priorNumber ⟨c, none, none⟩).add d)).get_position ⟨c, none, none⟩
        = some ⟨⟨c, none, none⟩, (inv.priorNumber ⟨c, none, none⟩).add d⟩ := by
  refine ⟨?_, get_position_store inv _ _⟩
  simp [Inventory.add, Lot.booked]

theorem inventoryBeq_refl (inv : Inventory) : inv.beq inv = true := by
  unfold Inventory.beq
  rw [Bool.and_eq_true]
  constructor <;>
    · rw [List.all_eq_true]
      intro p hp
      rw [List.any_eq_true]
      exact ⟨p, hp, positionBeq_refl p⟩

theorem Decimal.neg_add (a b : Decimal) : a.neg.add b.neg = (a.add b).neg := by
  unfold Decimal.neg Decimal.add
  simp only [Decimal.mk.injEq]
  constructor
  · ring
  · trivial

theorem Decimal.neg_zero_eq : Decimal.zero.neg = Decimal.zero := by
  unfold Decimal.zero Decimal.neg
  simp

theorem foldl_add_neg (l : List Decimal) (z : Decimal) :
    (l.map Decimal.neg).foldl Decimal.add z.neg
      = (l.foldl Decimal.add z).neg := by
  induction l generalizing z with
  | nil => rfl
  | cons d ds ih =>
    simp only [List.map_cons, List.foldl_cons]
    rw [Decimal.neg_add]
    exact ih (z.add d)

theorem sumDec_map_neg (l : List Decimal) :
    sumDec (l.map Decimal.neg) = (sumDec l).neg := by
  unfold sumDec
  rw [← Decimal.neg_zero_eq, foldl_add_neg, Decimal.neg_zero_eq]

theorem filterMap_currency_negate (l : List Position) (c : String) :
    (l.map (fun p => (⟨p.lot, p.number.neg⟩ : Position))).filterMap
      (fun p => if p.lot.currency == c then some p.number else none)
    = (l.filterMap
        (fun p => if p.lot.currency == c then some p.number else none)).map
        Decimal.neg := by
  induction l with
  | nil => rfl
  | cons p ps ih =>
    by_cases h : (p.lot.currency == c) = true
    · obtain heq : p.lot.currency = c := by simpa using h
      simp [List.filterMap_cons, heq]
      simpa using ih
    · obtain hne : ¬p.lot.currency = c := by simpa using h
      simp [List.filterMap_cons, hne]
      simpa using ih

theorem get_amount_negate (inv : Inventory) (c : String) :
    (inv.negate.get_amount c).number = (inv.get_amount c).number.neg := by
  unfold Inventory.get_amount Inventory.negate
  simp only
  rw [filterMap_currency_negate, sumDec_map_neg]

theorem currencies_negate (inv : Inventory) :
    currenciesOf inv.negate.positions = currenciesOf inv.positions := by
  unfold currenciesOf Inventory.negate
  simp [List.map_map]
  rfl

theorem Decimal.absLe_neg (a t : Decimal) : a.neg.absLe t = a.absLe t := by
  unfold Decimal.neg Decimal.absLe
  simp

theorem allOverMap {α β : Type} (l : List α) (f : α → β) (p : β → Bool) :
    (l.map f).all p = l.all (fun x => p (f x)) := by
  induction l with
  | nil => rfl
  | cons x xs ih => simp [List.all_cons, ih]

/-- C6: negation preserves lots and quantities up to sign, is an
involution (`-(-I) == I`), and preserves smallness for every threshold. -/
theorem claim_C6 (inv : Inventory) (t : Decimal) :
    inv.negate.positions
        = inv.positions.map (fun p => ⟨p.lot, p.number.neg⟩)
    ∧ inv.negate.negate = inv
    ∧ Inventory.beq inv.negate.negate inv = true
    ∧ inv.is_small t = inv.negate.is_small t := by
  have hdouble : inv.negate.negate = inv := by
    unfold Inventory.negate
    simp only [List.map_map]
    cases inv with
    | mk ps =>
      simp only [Inventory.mk.injEq]
      have : ∀ p : Position,
          (fun p : Position => (⟨p.lot, p.number.neg⟩ : Position))
            ((fun p : Position => (⟨p.lot, p.number.neg⟩ : Position)) p) = p := by
        intro p
        simp [Decimal.neg]
      calc ps.map _ = ps.map id := List.map_congr_left (fun p _ => this p)
        _ = ps := List.map_id ps
  refine ⟨rfl, hdouble, by rw [hdouble]; exact inventoryBeq_refl inv, ?_⟩
  unfold Inventory.is_small Inventory.get_amounts
  rw [currencies_negate]
  rw [allOverMap, allOverMap]
  have hfun : (fun c => ((inv.get_amount c).number.absLe t))
      = (fun c => ((inv.negate.get_amount c).number.absLe t)) := by
    funext c
    rw [get_amount_negate, Decimal.absLe_neg]
  rw [hfun]

theorem lotBeq_congr_left {L1 L2 : Lot} (h : L1.beq L2 = true) (M : Lot) :
    M.beq L1 = M.beq L2 := by
  by_cases h1 : M.beq L1 = true
  · rw [h1, lotBeq_trans h1 h]
  · by_cases h2 : M.beq L2 = true
    · exact absurd (lotBeq_trans h2 (lotBeq_symm h)) h1
    · rw [Bool.not_eq_true] at h1 h2
      rw [h1, h2]

theorem lotBeq_congr_right {L1 L2 : Lot} (h : L1.beq L2 = true) (M : Lot) :
    L1.beq M = L2.beq M := by
  by_cases h1 : L1.beq M = true
  · rw [h1, lotBeq_trans (lotBeq_symm h) h1]
  · by_cases h2 : L2.beq M = true
    · exact absurd (lotBeq_trans h h2) h1
    · rw [Bool.not_eq_true] at h1 h2
      rw [h1, h2]

/-- Whether some stored position carries the given lot. -/
def memberLot (inv : Inventory) (L : Lot) : Bool :=
  inv.positions.any (fun p => p.lot.beq L)

theorem any_storeList (l : List Position) (L : Lot) (n : Decimal) (M : Lot) :
    (storeList l L n).any (fun p => p.lot.beq M)
      = (l.any (fun p => p.lot.beq M) || L.beq M) := by
  induction l with
  | nil => simp [storeList]
  | cons p ps ih =>
    by_cases h : p.lot.beq L = true
    · have hpm : p.lot.beq M = L.beq M := lotBeq_congr_right h M
      simp only [storeList, h, if_true, List.any_cons, ih]
      rw [hpm]
      cases L.beq M <;> simp
    · rw [Bool.not_eq_true] at h
      simp only [storeList, h, Bool.false_eq_true, if_false, List.any_cons, ih]
      cases p.lot.beq M <;> simp

theorem find_storeList_other (l : List Position) (L : Lot) (n : Decimal)
    (M : Lot) (h : L.beq M = false) :
    (storeList l L n).find? (fun p => p.lot.beq M)
      = l.find? (fun p => p.lot.beq M) := by
  induction l with
  | nil => simp [storeList, List.find?, h]
  | cons p ps ih =>
    by_cases hp : p.lot.beq L = true
    · have hpm : p.lot.beq M = false := by
        by_cases hx : p.lot.beq M = true
        · exact absurd (lotBeq_trans (lotBeq_symm hp) hx) (by simp [h])
        · rwa [Bool.not_eq_true] at hx
      simp [storeList, hp, List.find?, h, hpm]
    · rw [Bool.not_eq_true] at hp
      by_cases hm : p.lot.beq M = true
      · simp [storeList, hp, List.find?, hm]
      · rw [Bool.not_eq_true] at hm
        simp [storeList, hp, List.find?, hm, ih]

theorem find_storeList_match (l : List Position) (L : Lot) (n : Decimal)
    (M : Lot) (h : L.beq M = true) :
    (storeList l L n).find? (fun p => p.lot.beq M) = some ⟨L, n⟩ := by
  induction l with
  | nil => simp [storeList, List.find?, h]
  | cons p ps ih =>
    by_cases hp : p.lot.beq L = true
    · simp [storeList, hp, List.find?, h]
    · rw [Bool.not_eq_true] at hp
      have hpm : p.lot.beq M = false := by
        by_cases hx : p.lot.beq M = true
        · exact absurd (lotBeq_trans hx (lotBeq_symm h)) (by simp [hp])
        · rwa [Bool.not_eq_true] at hx
      simp [storeList, hp, List.find?, hpm, ih]

theorem get_position_congr (inv : Inventory) {L1 L2 : Lot}
    (h : L1.beq L2 = true) : inv.get_position L1 = inv.get_position L2 := by
  unfold Inventory.get_position
  have : (fun p : Position => p.lot.beq L1) = fun p : Position => p.lot.beq L2 :=
    funext fun p => lotBeq_congr_left h p.lot
  rw [this]

theorem priorNumber_congr (inv : Inventory) {L1 L2 : Lot}
    (h : L1.beq L2 = true) : inv.priorNumber L1 = inv.priorNumber L2 := by
  unfold Inventory.priorNumber
  rw [get_position_congr inv h]

theorem memberLot_addPure (inv : Inventory) (L : Lot) (n : Decimal) (M : Lot) :
    memberLot (inv.addPure L n) M = (memberLot inv M || L.beq M) := by
  unfold memberLot Inventory.addPure Inventory.store
  exact any_storeList inv.positions L _ M

theorem priorNumber_addPure_match (inv : Inventory) (L : Lot) (n : Decimal)
    (M : Lot) (h : L.beq M = true) :
    (inv.addPure L n).priorNumber M = (inv.priorNumber L).add n := by
  unfold Inventory.addPure Inventory.store Inventory.priorNumber Inventory.get_position
  simp only
  rw [find_storeList_match inv.positions L _ M h]

theorem priorNumber_addPure_other (inv : Inventory) (L : Lot) (n : Decimal)
    (M : Lot) (h : L.beq M = false) :
    (inv.addPure L n).priorNumber M = inv.priorNumber M := by
  unfold Inventory.addPure Inventory.store Inventory.priorNumber Inventory.get_position
  simp only
  rw [find_storeList_other inv.positions L _ M h]

theorem all_storeList (l : List Position) (L : Lot) (n : Decimal)
    (P : Position → Bool) (hl : l.all P = true) (hn : P ⟨L, n⟩ = true) :
    (storeList l L n).all P = true := by
  induction l with
  | nil => simp [storeList, hn]
  | cons p ps ih =>
    rw [List.all_cons, Bool.and_eq_true] at hl
    by_cases hp : p.lot.beq L = true
    · simp [storeList, hp, List.all_cons, hn, hl.2]
    · rw [Bool.not_eq_true] at hp
      simp [storeList, hp, List.all_cons, hl.1, ih hl.2]

theorem distinctLots_storeList (l : List Position) (L : Lot) (n : Decimal)
    (h : distinctLots l = true) : distinctLots (storeList l L n) = true := by
  induction l with
  | nil => simp [storeList, distinctLots]
  | cons p ps ih =>
    rw [distinctLots, Bool.and_eq_true] at h
    by_cases hp : p.lot.beq L = true
    · have hform : storeList (p :: ps) L n = ⟨L, n⟩ :: ps := by
        simp [storeList, hp]
      rw [hform, distinctLots, Bool.and_eq_true]
      refine ⟨?_, h.2⟩
      have h1 := h.1
      rw [List.all_eq_true] at h1 ⊢
      intro q hq
      have := h1 q hq
      show (!(L.beq q.lot)) = true
      rwa [lotBeq_congr_right (lotBeq_symm hp) q.lot]
    · rw [Bool.not_eq_true] at hp
      have hform : storeList (p :: ps) L n = p :: storeList ps L n := by
        simp [storeList, hp]
      rw [hform, distinctLots, Bool.and_eq_true]
      refine ⟨?_, ih h.2⟩
      apply all_storeList ps L n _ h.1
      simp [hp]

/-- Extensional equivalence of inventories: the same lots are present and
each lot key aggregates to the same quantity. -/
def EquivInv (a b : Inventory) : Prop :=
  ∀ M : Lot, memberLot a M = memberLot b M
    ∧ (a.priorNumber M).deq (b.priorNumber M) = true

theorem EquivInv.refl (a : Inventory) : EquivInv a a :=
  fun _ => ⟨rfl, Decimal.deq_refl _⟩

theorem EquivInv.symm {a b : Inventory} (h : EquivInv a b) : EquivInv b a :=
  fun M => ⟨(h M).1.symm, Decimal.deq_symm (h M).2⟩

theorem EquivInv.trans {a b c : Inventory} (h1 : EquivInv a b)
    (h2 : EquivInv b c) : EquivInv a c :=
  fun M => ⟨(h1 M).1.trans (h2 M).1, Decimal.deq_trans (h1 M).2 (h2 M).2⟩

theorem Decimal.deq_add_congr {a b : Decimal} (n : Decimal)
    (h : a.deq b = true) : (a.add n).deq (b.add n) = true := by
  rw [Decimal.deq_iff] at h ⊢
  rw [Decimal.toRat_add, Decimal.toRat_add, h]

theorem equiv_addPure {a b : Inventory} (L : Lot) (n : Decimal)
    (h : EquivInv a b) : EquivInv (a.addPure L n) (b.addPure L n) := by
  intro M
  constructor
  · rw [memberLot_addPure, memberLot_addPure, (h M).1]
  · by_cases hm : L.beq M = true
    · rw [priorNumber_addPure_match a L n M hm, priorNumber_addPure_match b L n M hm]
      have hL : (a.priorNumber L).deq (b.priorNumber L) = true := by
        rw [priorNumber_congr a hm, priorNumber_congr b hm]
        exact (h M).2
      exact Decimal.deq_add_congr n hL
    · rw [Bool.not_eq_true] at hm
      rw [priorNumber_addPure_other a L n M hm, priorNumber_addPure_other b L n M hm]
      exact (h M).2

theorem addPure_swap (a : Inventory) (L1 L2 : Lot) (n1 n2 : Decimal) :
    EquivInv ((a.addPure L1 n1).addPure L2 n2) ((a.addPure L2 n2).addPure L1 n1) := by
  intro M
  constructor
  · rw [memberLot_addPure, memberLot_addPure, memberLot_addPure, memberLot_addPure]
    cases memberLot a M <;> cases L1.beq M <;> cases L2.beq M <;> simp
  · by_cases h2 : L2.beq M = true
    · by_cases h1 : L1.beq M = true
      · have h12 : L1.beq L2 = true := lotBeq_trans h1 (lotBeq_symm h2)
        rw [priorNumber_addPure_match _ L2 n2 M h2,
          priorNumber_addPure_match _ L1 n1 M h1]
        rw [priorNumber_addPure_match a L1 n1 L2 h12,
          priorNumber_addPure_match a L2 n2 L1 (lotBeq_symm h12)]
        rw [priorNumber_congr a h12]
        rw [Decimal.deq_iff]
        rw [Decimal.toRat_add, Decimal.toRat_add, Decimal.toRat_add, Decimal.toRat_add]
        ring
      · rw [Bool.not_eq_true] at h1
        have h21 : L2.beq L1 = false := by
          by_cases hx : L2.beq L1 = true
          · exact absurd (lotBeq_trans (lotBeq_symm hx) h2) (by simp [h1])
          · rwa [Bool.not_eq_true] at hx
        rw [priorNumber_addPure_match _ L2 n2 M h2,
          priorNumber_addPure_other _ L1 n1 M h1]
        rw [priorNumber_addPure_other a L1 n1 L2 (by
          by_cases hx : L1.beq L2 = true
          · exact absurd (lotBeq_trans hx h2) (by simp [h1])
          · rwa [Bool.not_eq_true] at hx)]
        rw [priorNumber_addPure_match a L2 n2 M h2]
        exact Decimal.deq_refl _
    · rw [Bool.not_eq_true] at h2
      by_cases h1 : L1.beq M = true
      · rw [priorNumber_addPure_other _ L2 n2 M h2,
          priorNumber_addPure_match _ L1 n1 M h1]
        rw [priorNumber_addPure_match _ L1 n1 M h1]
        rw [priorNumber_addPure_other a L2 n2 L1 (by
          by_cases hx : L2.beq L1 = true
          · exact absurd (lotBeq_trans hx h1) (by simp [h2])
          · rwa [Bool.not_eq_true] at hx)]
        exact Decimal.deq_refl _
      · rw [Bool.not_eq_true] at h1
        rw [priorNumber_addPure_other _ L2 n2 M h2,
          priorNumber_addPure_other _ L1 n1 M h1,
          priorNumber_addPure_other _ L1 n1 M h1,
          priorNumber_addPure_other _ L2 n2 M h2]
        exact Decimal.deq_refl _

/-- The construction-time merge step. -/
def mergeStep (inv : Inventory) (p : Position) : Inventory :=
  inv.addPure p.lot p.number

theorem equiv_foldl (l : List Position) {a b : Inventory} (h : EquivInv a b) :
    EquivInv (l.foldl mergeStep a) (l.foldl mergeStep b) := by
  induction l generalizing a b with
  | nil => exact h
  | cons p ps ih =>
    simp only [List.foldl_cons]
    exact ih (equiv_addPure p.lot p.number h)

theorem equiv_perm_foldl {l1 l2 : List Position} (hp : l1.Perm l2) :
    ∀ {a b : Inventory}, EquivInv a b →
      EquivInv (l1.foldl mergeStep a) (l2.foldl mergeStep b) := by
  induction hp with
  | nil => intro a b h; exact h
  | cons x _ ih =>
    intro a b h
    simp only [List.foldl_cons]
    exact ih (equiv_addPure x.lot x.number h)
  | swap x y l =>
    intro a b h
    simp only [List.foldl_cons]
    apply equiv_foldl
    exact EquivInv.trans (addPure_swap a y.lot x.lot y.number x.number)
      (equiv_addPure y.lot y.number (equiv_addPure x.lot x.number h))
  | trans _ _ ih1 ih2 =>
    intro a b h
    exact EquivInv.trans (ih1 h) (ih2 (EquivInv.refl b))

theorem ofPositions_foldl (l : List Position) :
    Inventory.ofPositions l = l.foldl mergeStep Inventory.empty := rfl

theorem equiv_ofPositions_perm {l1 l2 : List Position} (hp : l1.Perm l2) :
    EquivInv (Inventory.ofPositions l1) (Inventory.ofPositions l2) := by
  rw [ofPositions_foldl, ofPositions_foldl]
  exact equiv_perm_foldl hp (EquivInv.refl Inventory.empty)

theorem find?_distinct {l : List Position} (hd : distinctLots l = true)
    {p : Position} (hp : p ∈ l) :
    l.find? (fun q => q.lot.beq p.lot) = some p := by
  induction l with
  | nil => cases hp
  | cons r rs ih =>
    rw [distinctLots, Bool.and_eq_true] at hd
    rcases List.mem_cons.mp hp with heq | hmem
    · subst heq
      simp [List.find?, lotBeq_refl]
    · have hrp : r.lot.beq p.lot = false := by
        have := (List.all_eq_true.mp hd.1) p hmem
        simpa using this
      simp [List.find?, hrp, ih hd.2 hmem]

theorem memberLot_of_mem {inv : Inventory} {p : Position}
    (hp : p ∈ inv.positions) : memberLot inv p.lot = true := by
  unfold memberLot
  rw [List.any_eq_true]
  exact ⟨p, hp, lotBeq_refl p.lot⟩

theorem get_position_of_member {inv : Inventory} {L : Lot}
    (h : memberLot inv L = true) :
    ∃ q, inv.get_position L = some q ∧ q ∈ inv.positions ∧ q.lot.beq L = true := by
  unfold memberLot at h
  unfold Inventory.get_position
  rw [List.any_eq_true] at h
  obtain ⟨x, hx, hpred⟩ := h
  match hfind : inv.positions.find? (fun p => p.lot.beq L) with
  | some q =>
    have hp2 := List.find?_some hfind
    exact ⟨q, hfind, List.mem_of_find?_eq_some hfind, hp2⟩
  | none =>
    rw [List.find?_eq_none] at hfind
    exact absurd hpred (by simpa using hfind x hx)

theorem beq_of_equiv {a b : Inventory} (ha : a.canonical = true)
    (hb : b.canonical = true) (h : EquivInv a b) : a.beq b = true := by
  unfold Inventory.beq
  rw [Bool.and_eq_true]
  constructor
  · rw [List.all_eq_true]
    intro p hp
    rw [List.any_eq_true]
    have hmb : memberLot b p.lot = true := (h p.lot).1 ▸ memberLot_of_mem hp
    obtain ⟨q, hq, hqmem, hqlot⟩ := get_position_of_member hmb
    refine ⟨q, hqmem, ?_⟩
    unfold Position.beq
    rw [Bool.and_eq_true]
    refine ⟨lotBeq_symm hqlot, ?_⟩
    have hpa : a.priorNumber p.lot = p.number := by
      unfold Inventory.priorNumber Inventory.get_position
      rw [find?_distinct ha hp]
    have hpb : b.priorNumber p.lot = q.number := by
      unfold Inventory.priorNumber
      rw [hq]
    have := (h p.lot).2
    rw [hpa, hpb] at this
    exact this
  · rw [List.all_eq_true]
    intro q hq
    rw [List.any_eq_true]
    have hma : memberLot a q.lot = true := (h q.lot).1 ▸ memberLot_of_mem hq
    obtain ⟨p, hpfind, hpmem, hplot⟩ := get_position_of_member hma
    refine ⟨p, hpmem, ?_⟩
    unfold Position.beq
    rw [Bool.and_eq_true]
    refine ⟨lotBeq_symm hplot, ?_⟩
    have hpb : b.priorNumber q.lot = q.number := by
      unfold Inventory.priorNumber Inventory.get_position
      rw [find?_distinct hb hq]
    have hpa : a.priorNumber q.lot = p.number := by
      unfold Inventory.priorNumber
      rw [hpfind]
    have := (h q.lot).2
    rw [hpa, hpb] at this
    exact Decimal.deq_symm this

theorem canonical_addPure (inv : Inventory) (L : Lot) (n : Decimal)
    (h : inv.canonical = true) : (inv.addPure L n).canonical = true := by
  unfold Inventory.canonical at h ⊢
  exact distinctLots_storeList inv.positions L _ h

theorem canonical_foldl (l : List Position) (inv : Inventory)
    (h : inv.canonical = true) : (l.foldl mergeStep inv).canonical = true := by
  induction l generalizing inv with
  | nil => exact h
  | cons p ps ih =>
    simp only [List.foldl_cons]
    exact ih _ (canonical_addPure inv p.lot p.number h)

theorem canonical_ofPositions (l : List Position) :
    (Inventory.ofPositions l).canonical = true := by
  rw [ofPositions_foldl]
  exact canonical_foldl l Inventory.empty rfl

theorem add_ok_canonical {inv res : Inventory} {amount : Amount}
    {cost : Option Amount} {adate : Option Date} {allow : Bool}
    (hc : inv.canonical = true)
    (h : inv.add amount cost adate allow = Except.ok res) :
    res.canonical = true := by
  unfold Inventory.add at h
  split at h
  · cases h
  · injection h with h2
    exact h2 ▸ canonical_addPure inv ⟨amount.currency, cost, adate⟩ amount.number hc

theorem update_canonical_aux (l : List Position) (inv res : Inventory)
    (hc : inv.canonical = true)
    (h : l.foldlM (fun acc p => acc.add_position p false) inv = Except.ok res) :
    res.canonical = true := by
  induction l generalizing inv with
  | nil =>
    simp only [List.foldlM_nil] at h
    injection h with h2
    exact h2 ▸ hc
  | cons p ps ih =>
    rw [List.foldlM_cons] at h
    cases hstep : inv.add_position p false with
    | error e =>
      rw [hstep] at h
      exact Except.noConfusion h
    | ok acc =>
      rw [hstep] at h
      have hacc : acc.canonical = true := add_ok_canonical hc hstep
      exact ih acc hacc h

theorem update_ok_canonical {inv other res : Inventory}
    (hc : inv.canonical = true)
    (h : inv.update other = Except.ok res) : res.canonical = true :=
  update_canonical_aux other.positions inv res hc h

theorem distinctLots_negate (l : List Position) :
    distinctLots (l.map (fun p => (⟨p.lot, p.number.neg⟩ : Position)))
      = distinctLots l := by
  induction l with
  | nil => rfl
  | cons p ps ih =>
    simp only [List.map_cons, distinctLots, ih, allOverMap]

theorem ofPositions_pair (L : Lot) (x y : Decimal) :
    (Inventory.ofPositions [⟨L, x⟩, ⟨L, y⟩]).positions = [⟨L, x.add y⟩] := by
  have h1 : Inventory.empty.addPure L x = ⟨[⟨L, x⟩]⟩ := by
    simp [Inventory.addPure, Inventory.priorNumber, Inventory.get_position,
      Inventory.empty, List.find?, Inventory.store, storeList, Decimal.zero_add]
  have h2 : (⟨[⟨L, x⟩]⟩ : Inventory).addPure L y = ⟨[⟨L, x.add y⟩]⟩ := by
    simp [Inventory.addPure, Inventory.priorNumber, Inventory.get_position,
      List.find?, lotBeq_refl, Inventory.store, storeList]
  unfold Inventory.ofPositions
  simp only [List.foldl_cons, List.foldl_nil, mergeStep]
  show (((Inventory.empty.addPure L x)).addPure L y).positions = _
  rw [h1, h2]

/-- C3: lot uniqueness is an invariant — construction, a successful
`add`, a successful `update`, `negate` and `get_cost` all preserve it —
and constructing from two positions with an identical lot and quantities
`x`, `y` yields the single position `⟨L, x + y⟩`, with `size` counting
distinct lots. -/
theorem claim_C3 (l : List Position) (inv res res2 other : Inventory)
    (amount : Amount) (cost : Option Amount) (adate : Option Date)
    (allow : Bool) (L : Lot) (x y : Decimal)
    (hc : inv.canonical = true)
    (hadd : inv.add amount cost adate allow = Except.ok res)
    (hup : inv.update other = Except.ok res2) :
    (Inventory.ofPositions l).canonical = true
    ∧ res.canonical = true
    ∧ res2.canonical = true
    ∧ inv.get_cost.canonical = true
    ∧ inv.negate.canonical = inv.canonical
    ∧ (Inventory.ofPositions [⟨L, x⟩, ⟨L, y⟩]).positions = [⟨L, x.add y⟩]
    ∧ (Inventory.ofPositions [⟨L, x⟩, ⟨L, y⟩]).size = 1 := by
  refine ⟨canonical_ofPositions l, add_ok_canonical hc hadd,
    update_ok_canonical hc hup, canonical_ofPositions _,
    distinctLots_negate inv.positions, ofPositions_pair L x y, ?_⟩
  unfold Inventory.size
  rw [ofPositions_pair L x y]
  rfl

/-- C3 witness: concrete instances of the invariant statements. -/
theorem claim_C3_witness :
    (Inventory.ofPositions [⟨⟨"USD", none, none⟩, ⟨1, 0⟩⟩]).canonical = true :=
  (claim_C3 [⟨⟨"USD", none, none⟩, ⟨1, 0⟩⟩]
    ⟨[⟨⟨"USD", none, none⟩, ⟨10, 0⟩⟩]⟩
    ⟨[⟨⟨"USD", none, none⟩, ⟨15, 0⟩⟩]⟩
    ⟨[⟨⟨"USD", none, none⟩, ⟨10, 0⟩⟩, ⟨⟨"CAD", none, none⟩, ⟨7, 0⟩⟩]⟩
    ⟨[⟨⟨"CAD", none, none⟩, ⟨7, 0⟩⟩]⟩
    ⟨⟨5, 0⟩, "USD"⟩ none none false ⟨"USD", none, none⟩ ⟨1, 0⟩ ⟨2, 0⟩
    (by decide) (by rfl) (by rfl)).1

/-- C5: inventory equality is insertion-order independent — the
inventories constructed from any two permutations of a position list are
equal — and inventories differing in a quantity or a lot are unequal
(concrete instances from the test suite). -/
theorem claim_C5 (l1 l2 : List Position) (hp : l1.Perm l2) :
    Inventory.beq (Inventory.ofPositions l1) (Inventory.ofPositions l2) = true
    ∧ Inventory.beq
        (Inventory.ofPositions [⟨⟨"USD", none, none⟩, ⟨100, 0⟩⟩,
          ⟨⟨"CAD", none, none⟩, ⟨100, 0⟩⟩])
        (Inventory.ofPositions [⟨⟨"CAD", none, none⟩, ⟨100, 0⟩⟩,
          ⟨⟨"USD", none, none⟩, ⟨100, 0⟩⟩]) = true
    ∧ Inventory.beq
        (Inventory.ofPositions [⟨⟨"USD", none, none⟩, ⟨100, 0⟩⟩,
          ⟨⟨"CAD", none, none⟩, ⟨100, 0⟩⟩])
        (Inventory.ofPositions [⟨⟨"USD", none, none⟩, ⟨200, 0⟩⟩,
          ⟨⟨"CAD", none, none⟩, ⟨100, 0⟩⟩]) = false
    ∧ Inventory.beq
        (Inventory.ofPositions [⟨⟨"USD", none, none⟩, ⟨100, 0⟩⟩,
          ⟨⟨"CAD", none, none⟩, ⟨100, 0⟩⟩])
        (Inventory.ofPositions [⟨⟨"USD", none, none⟩, ⟨100, 0⟩⟩,
          ⟨⟨"JPY", none, none⟩, ⟨100, 0⟩⟩]) = false := by
  refine ⟨?_, by decide, by decide, by decide⟩
  exact beq_of_equiv (canonical_ofPositions l1) (canonical_ofPositions l2)
    (equiv_ofPositions_perm hp)

/-- C5 witness: a concrete two-element permutation. -/
theorem claim_C5_witness :
    Inventory.beq
      (Inventory.ofPositions [⟨⟨"USD", none, none⟩, ⟨100, 0⟩⟩,
        ⟨⟨"CAD", none, none⟩, ⟨100, 0⟩⟩])
      (Inventory.ofPositions [⟨⟨"CAD", none, none⟩, ⟨100, 0⟩⟩,
        ⟨⟨"USD", none, none⟩, ⟨100, 0⟩⟩]) = true :=
  (claim_C5 [⟨⟨"USD", none, none⟩, ⟨100, 0⟩⟩, ⟨⟨"CAD", none, none⟩, ⟨100, 0⟩⟩]
    [⟨⟨"CAD", none, none⟩, ⟨100, 0⟩⟩, ⟨⟨"USD", none, none⟩, ⟨100, 0⟩⟩]
    (List.Perm.swap _ _ _)).1

theorem readInv_append (hp : List Inventory) (v : Inventory) (r : Nat)
    (hlt : r < hp.length) : readInv (hp ++ [v]) r = readInv hp r := by
  unfold readInv List.getD
  rw [List.get?_append hlt]

theorem readInv_append_new (hp : List Inventory) (v : Inventory) :
    readInv (hp ++ [v]) hp.length = v := by
  unfold readInv List.getD
  rw [List.get?_concat_length]
  rfl

/-- C7: `operator+` is pure — it allocates the clone-then-update result in
a fresh heap slot, every existing slot (in particular both operands) is
unchanged, and when the underlying `update` fails the heap is untouched. -/
theorem claim_C7 (hp : List Inventory) (ra rb r : Nat) (v : Inventory)
    (e : BookingError) (hra : ra < hp.length) (hrb : rb < hp.length)
    (hr : r < hp.length)
    (hok : Inventory.update (readInv hp ra) (readInv hp rb) = Except.ok v) :
    opAddHeap hp ra rb = (hp ++ [v], some hp.length)
    ∧ readInv (hp ++ [v]) ra = readInv hp ra
    ∧ readInv (hp ++ [v]) rb = readInv hp rb
    ∧ readInv (hp ++ [v]) r = readInv hp r
    ∧ readInv (hp ++ [v]) hp.length = v
    ∧ (∀ (hp2 : List Inventory) (ra2 rb2 : Nat),
        Inventory.update (readInv hp2 ra2) (readInv hp2 rb2)
          = Except.error e →
        opAddHeap hp2 ra2 rb2 = (hp2, none)) := by
  refine ⟨?_, readInv_append hp v ra hra, readInv_append hp v rb hrb,
    readInv_append hp v r hr, readInv_append_new hp v, ?_⟩
  · unfold opAddHeap
    rw [hok]
  · intro hp2 ra2 rb2 herr
    unfold opAddHeap
    rw [herr]

/-- C7 witness: a concrete two-slot heap. -/
theorem claim_C7_witness :
    opAddHeap [⟨[⟨⟨"USD", none, none⟩, ⟨17, 0⟩⟩]⟩,
        ⟨[⟨⟨"CAD", none, none⟩, ⟨21, 0⟩⟩]⟩] 0 1
      = ([⟨[⟨⟨"USD", none, none⟩, ⟨17, 0⟩⟩]⟩,
          ⟨[⟨⟨"CAD", none, none⟩, ⟨21, 0⟩⟩]⟩,
          ⟨[⟨⟨"USD", none, none⟩, ⟨17, 0⟩⟩, ⟨⟨"CAD", none, none⟩, ⟨21, 0⟩⟩]⟩],
         some 2) :=
  (claim_C7 [⟨[⟨⟨"USD", none, none⟩, ⟨17, 0⟩⟩]⟩,
      ⟨[⟨⟨"CAD", none, none⟩, ⟨21, 0⟩⟩]⟩] 0 1 0
    ⟨[⟨⟨"USD", none, none⟩, ⟨17, 0⟩⟩, ⟨⟨"CAD", none, none⟩, ⟨21, 0⟩⟩]⟩
    BookingError.wouldReduceLotBelowZero
    (by decide) (by decide) (by decide) (by rfl)).1

/-- The total rational value held in currency `c` by a position list. -/
def valC (l : List Position) (c : String) : ℚ :=
  ((l.filterMap
    (fun p => if p.lot.currency == c then some p.number else none)).map
      Decimal.toRat).sum

/-- The quantity of the first position matching a lot (zero if none). -/
def firstNum (l : List Position) (L : Lot) : Decimal :=
  match l.find? (fun p => p.lot.beq L) with
  | some p => p.number
  | none => Decimal.zero

theorem priorNumber_eq_firstNum (inv : Inventory) (L : Lot) :
    inv.priorNumber L = firstNum inv.positions L := rfl

theorem foldl_add_toRat (l : List Decimal) (z : Decimal) :
    (l.foldl Decimal.add z).toRat = z.toRat + (l.map Decimal.toRat).sum := by
  induction l generalizing z with
  | nil => simp
  | cons d ds ih =>
    simp only [List.foldl_cons, List.map_cons, List.sum_cons]
    rw [ih, Decimal.toRat_add]
    ring

theorem sumDec_toRat (l : List Decimal) :
    (sumDec l).toRat = (l.map Decimal.toRat).sum := by
  unfold sumDec
  rw [foldl_add_toRat, Decimal.toRat_zero, zero_add]

theorem valC_cons (p : Position) (l : List Position) (c : String) :
    valC (p :: l) c
      = (if p.lot.currency == c then p.number.toRat else 0) + valC l c := by
  by_cases h : p.lot.currency = c
  · simp [valC, List.filterMap_cons, h]
  · simp [valC, List.filterMap_cons, h]

theorem valC_storeList (l : List Position) (L : Lot) (n : Decimal) (c : String) :
    valC (storeList l L ((firstNum l L).add n)) c
      = valC l c + (if L.currency == c then n.toRat else 0) := by
  induction l with
  | nil =>
    simp only [storeList, firstNum, List.find?]
    rw [valC_cons]
    show (if L.currency == c then (Decimal.zero.add n).toRat else 0) + valC [] c = _
    rw [Decimal.toRat_add, Decimal.toRat_zero]
    simp [valC]
  | cons q qs ih =>
    by_cases hq : q.lot.beq L = true
    · have hfn : firstNum (q :: qs) L = q.number := by
        simp [firstNum, List.find?, hq]
      have hstore : storeList (q :: qs) L ((firstNum (q :: qs) L).add n)
          = ⟨L, (q.number.add n : Decimal)⟩ :: qs := by
        simp [storeList, hq, hfn]
      rw [hstore, valC_cons, valC_cons]
      have hcur : q.lot.currency = L.currency := Lot.beq_currency hq
      rw [hcur, Decimal.toRat_add]
      by_cases hc : (L.currency == c) = true
      · simp only [hc, if_true]
        ring
      · rw [Bool.not_eq_true] at hc
        simp only [hc, Bool.false_eq_true, if_false]
        ring
    · rw [Bool.not_eq_true] at hq
      have hfn : firstNum (q :: qs) L = firstNum qs L := by
        simp [firstNum, List.find?, hq]
      have hstore : storeList (q :: qs) L ((firstNum (q :: qs) L).add n)
          = q :: storeList qs L ((firstNum qs L).add n) := by
        simp [storeList, hq, hfn]
      rw [hstore, valC_cons, ih, valC_cons]
      ring

theorem valC_mergeStep (acc : Inventory) (p : Position) (c : String) :
    valC ((mergeStep acc p).positions) c
      = valC acc.positions c
        + (if p.lot.currency == c then p.number.toRat else 0) := by
  show valC (storeList acc.positions p.lot ((acc.priorNumber p.lot).add p.number)) c = _
  rw [priorNumber_eq_firstNum]
  exact valC_storeList acc.positions p.lot p.number c

theorem valC_foldl (l : List Position) (acc : Inventory) (c : String) :
    valC ((l.foldl mergeStep acc).positions) c
      = valC acc.positions c + valC l c := by
  induction l generalizing acc with
  | nil => simp [valC]
  | cons p ps ih =>
    simp only [List.foldl_cons]
    rw [ih, valC_mergeStep, valC_cons]
    ring

theorem get_amount_toRat (inv : Inventory) (c : String) :
    (inv.get_amount c).number.toRat = valC inv.positions c := by
  unfold Inventory.get_amount valC
  simp only
  rw [sumDec_toRat]

theorem get_amount_ofPositions (l : List Position) (c : String) :
    ((Inventory.ofPositions l).get_amount c).number.toRat = valC l c := by
  rw [get_amount_toRat, ofPositions_foldl, valC_foldl]
  simp [valC, Inventory.empty]

theorem costContribution_unbooked (p : Position) :
    (costContribution p).lot.booked = false := by
  unfold costContribution
  cases p.lot.cost with
  | none => rfl
  | some cst => rfl

theorem all_lots_foldl (l : List Position) (acc : Inventory) (P : Lot → Bool)
    (hacc : acc.positions.all (fun p => P p.lot) = true)
    (hl : l.all (fun p => P p.lot) = true) :
    ((l.foldl mergeStep acc).positions).all (fun p => P p.lot) = true := by
  induction l generalizing acc with
  | nil => exact hacc
  | cons p ps ih =>
    rw [List.all_cons, Bool.and_eq_true] at hl
    simp only [List.foldl_cons]
    refine ih _ ?_ hl.2
    exact all_storeList acc.positions p.lot _ (fun q => P q.lot) hacc hl.1

/-- C4: `get_cost` revalues every position — `number * cost.number` of the
cost currency when a cost is present, the plain amount otherwise — and
merges the contributions by currency alone into unbooked lots, summing
quantities; concretely, 10 USD + 40.50 USD held at 1.10 CAD + 50.00 CAD
cost out to 10 USD + 94.55 CAD. -/
theorem claim_C4 (inv : Inventory) (c : String) :
    inv.get_cost = Inventory.ofPositions (inv.positions.map costContribution)
    ∧ inv.get_cost.positions.all (fun p => !(p.lot.booked)) = true
    ∧ (inv.get_cost.get_amount c).number.deq
        (sumDec ((inv.positions.map costContribution).filterMap
          (fun p => if p.lot.currency == c then some p.number else none)))
        = true
    ∧ Inventory.beq
        (Inventory.get_cost (Inventory.ofPositions
          [⟨⟨"USD", none, none⟩, ⟨10, 0⟩⟩,
           ⟨⟨"USD", some ⟨⟨110, 2⟩, "CAD"⟩, none⟩, ⟨4050, 2⟩⟩,
           ⟨⟨"CAD", none, none⟩, ⟨5000, 2⟩⟩]))
        (Inventory.ofPositions
          [⟨⟨"USD", none, none⟩, ⟨10, 0⟩⟩,
           ⟨⟨"CAD", none, none⟩, ⟨9455, 2⟩⟩]) = true := by
  refine ⟨rfl, ?_, ?_, by decide⟩
  · unfold Inventory.get_cost
    rw [ofPositions_foldl]
    refine all_lots_foldl _ _ (fun L => !(L.booked)) rfl ?_
    rw [allOverMap]
    rw [List.all_eq_true]
    intro p _
    show (!(costContribution p).lot.booked) = true
    rw [costContribution_unbooked]
    rfl
  · rw [Decimal.deq_iff]
    unfold Inventory.get_cost
    rw [get_amount_ofPositions, sumDec_toRat]
    unfold valC
    rfl

/-- The opening brace character of a cost annotation. -/
def lbrace : Char := Char.ofNat 123

/-- The closing brace character of a cost annotation. -/
def rbrace : Char := Char.ofNat 125

/-- Digit test for the grammar. -/
def isDigitChar (ch : Char) : Bool := ch.isDigit

/-- Currency-token characters: uppercase alphanumerics. -/
def isCurrChar (ch : Char) : Bool := ch.isUpper || ch.isDigit

/-- Drop leading spaces. -/
def dropSpaces (s : List Char) : List Char := s.dropWhile (fun ch => ch == ' ')

/-- The numeric value of a big-endian digit-character string. -/
def digitsVal (cs : List Char) : Nat :=
  cs.foldl (fun a ch => 10 * a + (ch.toNat - 48)) 0

/-- The character of one digit. -/
def digChar (d : Nat) : Char := Char.ofNat (48 + d)

/-- Fuel-bounded little-endian base-10 digits (kernel-computable). -/
def toDigitsRev (fuel n : Nat) : List Nat :=
  match fuel with
  | 0 => []
  | fuel' + 1 => if n = 0 then [] else (n % 10) :: toDigitsRev fuel' (n / 10)

/-- The big-endian digit characters of a natural number (empty for 0). -/
def natDigs (n : Nat) : List Char := ((toDigitsRev n n).map digChar).reverse

theorem toDigitsRev_eq (fuel n : Nat) (h : n ≤ fuel) :
    toDigitsRev fuel n = Nat.digits 10 n := by
  induction fuel generalizing n with
  | zero =>
    have hn : n = 0 := by omega
    subst hn
    simp [toDigitsRev]
  | succ f ih =>
    by_cases hn : n = 0
    · subst hn
      simp [toDigitsRev]
    · rw [toDigitsRev, if_neg hn]
      rw [Nat.digits_def' (by norm_num : 1 < 10) (Nat.pos_of_ne_zero hn)]
      have hdiv : n / 10 ≤ f := by
        have := Nat.div_lt_self (Nat.pos_of_ne_zero hn) (by norm_num : 1 < 10)
        omega
      rw [ih (n / 10) hdiv]

theorem natDigs_eq (n : Nat) :
    natDigs n = ((Nat.digits 10 n).map digChar).reverse := by
  unfold natDigs
  rw [toDigitsRev_eq n n le_rfl]

/-- Digit characters of `n`, left-padded with zeros to at least `k`
characters. -/
def padDigits (n k : Nat) : List Char :=
  List.replicate (k - (natDigs n).length) '0' ++ natDigs n

/-- Modelled from the spec: render an exact decimal — optional minus sign,
the digits of the mantissa with a decimal point placed `exp` digits from
the right (the textual form Python `Decimal` keeps, trailing zeros
included). -/
def formatDec (d : Decimal) : List Char :=
  if d.man < 0 then '-' :: decCore d else decCore d
where
  /-- The unsigned digit core of a rendered decimal. -/
  decCore (d : Decimal) : List Char :=
    if d.exp = 0 then padDigits d.man.natAbs 1
    else
      (padDigits d.man.natAbs (d.exp + 1)).take
          ((padDigits d.man.natAbs (d.exp + 1)).length - d.exp)
        ++ '.' :: (padDigits d.man.natAbs (d.exp + 1)).drop
          ((padDigits d.man.natAbs (d.exp + 1)).length - d.exp)

/-- Modelled from the spec: render a date as `YYYY-MM-DD`. -/
def formatDate (dt : Date) : List Char :=
  padDigits dt.year 4 ++ '-' :: (padDigits dt.month 2 ++ '-' :: padDigits dt.day 2)

/-- Modelled from the spec: render one position as
`NUMBER CURRENCY [ '\x7b' NUMBER CURRENCY [ '/' DATE ] '\x7d' ]`. -/
def formatPosition (p : Position) : List Char :=
  formatDec p.number ++ ' ' :: p.lot.currency.data
    ++ match p.lot.cost with
      | none => []
      | some cst =>
        ' ' :: lbrace :: (formatDec cst.number ++ ' ' :: cst.currency.data
          ++ (match p.lot.acqDate with
             | none => []
             | some dt => ' ' :: '/' :: ' ' :: formatDate dt))
          ++ [rbrace]

/-- Join rendered positions with a comma and a space. -/
def joinComma : List (List Char) → List Char
  | [] => []
  | [t] => t
  | t :: ts => t ++ ',' :: ' ' :: joinComma ts

/-- Modelled from the spec: the human-readable rendering of an inventory —
its positions in insertion order, comma-separated. -/
def formatInventory (inv : Inventory) : List Char :=
  joinComma (inv.positions.map formatPosition)

/-- Continuation of `parseUnsigned` on the input left after the integer
digits. -/
def parseUnsignedTail (ds : List Char) : List Char → Option ((Nat × Nat) × List Char)
  | [] => some ((digitsVal ds, 0), [])
  | ch :: r2 =>
    if ch == '.' then
      if (r2.takeWhile isDigitChar).isEmpty then none
      else some ((digitsVal (ds ++ r2.takeWhile isDigitChar),
          (r2.takeWhile isDigitChar).length), r2.dropWhile isDigitChar)
    else some ((digitsVal ds, 0), ch :: r2)

/-- Modelled from the spec: parse an unsigned decimal literal — digits,
optionally a point and more digits — returning mantissa and number of
fractional digits plus the remaining input. -/
def parseUnsigned (s : List Char) : Option ((Nat × Nat) × List Char) :=
  if (s.takeWhile isDigitChar).isEmpty then none
  else parseUnsignedTail (s.takeWhile isDigitChar) (s.dropWhile isDigitChar)

/-- Build the signed decimal from a parsed unsigned literal. -/
def parseNumberTail (sign : Bool) :
    Option ((Nat × Nat) × List Char) → Option (Decimal × List Char)
  | some ((m, e), rest) =>
    some (⟨if sign then -(m : Int) else (m : Int), e⟩, rest)
  | none => none

/-- Modelled from the spec: parse an optional-sign decimal literal. -/
def parseNumber : List Char → Option (Decimal × List Char)
  | [] => none
  | ch :: r =>
    if ch == '-' then parseNumberTail true (parseUnsigned r)
    else if ch == '+' then parseNumberTail false (parseUnsigned r)
    else parseNumberTail false (parseUnsigned (ch :: r))

/-- Modelled from the spec: parse a currency token (nonempty run of
uppercase alphanumerics). -/
def parseCurrency (s : List Char) : Option (String × List Char) :=
  if (s.takeWhile isCurrChar).isEmpty then none
  else some (String.mk (s.takeWhile isCurrChar), s.dropWhile isCurrChar)

/-- Continuation of `parseDate` after the month field. -/
def parseDateTail2 (y m : List Char) : List Char → Option (Date × List Char)
  | [] => none
  | ch2 :: r4 =>
    if ch2 == '-' then
      if (r4.takeWhile isDigitChar).length == 2 then
        some (⟨digitsVal y, digitsVal m, digitsVal (r4.takeWhile isDigitChar)⟩,
          r4.dropWhile isDigitChar)
      else none
    else none

/-- Continuation of `parseDate` after the year field. -/
def parseDateTail1 (y : List Char) : List Char → Option (Date × List Char)
  | [] => none
  | ch1 :: r2 =>
    if ch1 == '-' then
      if (r2.takeWhile isDigitChar).length == 2 then
        parseDateTail2 y (r2.takeWhile isDigitChar) (r2.dropWhile isDigitChar)
      else none
    else none

/-- Modelled from the spec: parse a `YYYY-MM-DD` date. -/
def parseDate (s : List Char) : Option (Date × List Char) :=
  if (s.takeWhile isDigitChar).length == 4 then
    parseDateTail1 (s.takeWhile isDigitChar) (s.dropWhile isDigitChar)
  else none

/-- Position parser: after the date, expect the closing brace and only
whitespace beyond it. -/
def parsePosClose (cur : String) (n cn : Decimal) (ccur : String) (dt : Date) :
    List Char → Option Position
  | [] => none
  | ch3 :: t5 =>
    if ch3 == rbrace && (dropSpaces t5).isEmpty then
      some ⟨⟨cur, some ⟨cn, ccur⟩, some dt⟩, n⟩
    else none

/-- Position parser: consume the optional date of a cost annotation. -/
def parsePosAfterDate (cur : String) (n cn : Decimal) (ccur : String) :
    Option (Date × List Char) → Option Position
  | none => none
  | some (dt, t4) => parsePosClose cur n cn ccur dt (dropSpaces t4)

/-- Position parser: after the cost currency, expect `\x7d` or `/ DATE \x7d`. -/
def parsePosAfterCost (cur : String) (n cn : Decimal) (ccur : String) :
    List Char → Option Position
  | [] => none
  | ch2 :: t3 =>
    if ch2 == rbrace then
      if (dropSpaces t3).isEmpty then some ⟨⟨cur, some ⟨cn, ccur⟩, none⟩, n⟩
      else none
    else if ch2 == '/' then
      parsePosAfterDate cur n cn ccur (parseDate (dropSpaces t3))
    else none

/-- Position parser: consume the cost currency. -/
def parsePosCost2 (cur : String) (n cn : Decimal) :
    Option (String × List Char) → Option Position
  | none => none
  | some (ccur, t2) => parsePosAfterCost cur n cn ccur (dropSpaces t2)

/-- Position parser: consume the cost number. -/
def parsePosCost1 (cur : String) (n : Decimal) :
    Option (Decimal × List Char) → Option Position
  | none => none
  | some (cn, t1) => parsePosCost2 cur n cn (parseCurrency (dropSpaces t1))

/-- Position parser: after the currency, the input must be exhausted or a
brace-enclosed cost must follow. -/
def parsePosAfterCur (n : Decimal) (cur : String) : List Char → Option Position
  | [] => some ⟨⟨cur, none, none⟩, n⟩
  | ch :: r =>
    if ch == lbrace then parsePosCost1 cur n (parseNumber (dropSpaces r))
    else none

/-- Position parser: consume the currency. -/
def parsePosCur (n : Decimal) : Option (String × List Char) → Option Position
  | none => none
  | some (cur, s3) => parsePosAfterCur n cur (dropSpaces s3)

/-- Position parser: consume the leading number. -/
def parsePosNum : Option (Decimal × List Char) → Option Position
  | none => none
  | some (n, s1) => parsePosCur n (parseCurrency (dropSpaces s1))

/-- Modelled from the spec: parse one position — `NUMBER CURRENCY` with an
optional brace-enclosed cost `NUMBER CURRENCY [ '/' DATE ]`, surrounding
whitespace ignored; the whole input must be consumed. -/
def parsePosition (s : List Char) : Option Position :=
  parsePosNum (parseNumber (dropSpaces s))

/-- Prepend a character to the first chunk of a split. -/
def consHead (ch : Char) : List (List Char) → List (List Char)
  | [] => [[ch]]
  | h :: t => (ch :: h) :: t

/-- Split the input at every comma. -/
def splitComma : List Char → List (List Char)
  | [] => [[]]
  | ch :: r =>
    if ch == ',' then [] :: splitComma r
    else consHead ch (splitComma r)

/-- Merge successfully parsed positions into an inventory. -/
def parseInvTail : Option (List Position) → Option Inventory
  | some ps => some (Inventory.ofPositions ps)
  | none => none

/-- Modelled from the spec: parse an inventory — zero or more positions
separated by commas; the empty (all-whitespace) string parses to the empty
inventory; the parsed positions are merged with the construction rule. -/
def parseInventory (s : List Char) : Option Inventory :=
  if (dropSpaces s).isEmpty then some Inventory.empty
  else parseInvTail ((splitComma s).mapM parsePosition)

/-- A valid currency token: nonempty, all uppercase alphanumerics. -/
def validCurrency (c : String) : Bool :=
  !c.data.isEmpty && c.data.all isCurrChar

/-- A date representable in the `YYYY-MM-DD` field widths. -/
def validDate (dt : Date) : Bool :=
  decide (dt.year < 10000) && decide (dt.month < 100) && decide (dt.day < 100)

/-- A lot the textual grammar can represent: valid currency tokens, a
date only in the presence of a cost, and the date within field widths. -/
def wfLot (L : Lot) : Bool :=
  validCurrency L.currency
    && (match L.cost with
       | none => L.acqDate.isNone
       | some cst => validCurrency cst.currency)
    && (match L.acqDate with
       | none => true
       | some dt => validDate dt)

/-- Inventory content the grammar round-trips: canonical (no duplicate
lots) and every lot representable. -/
def wfInventory (inv : Inventory) : Bool :=
  inv.canonical && inv.positions.all (fun p => wfLot p.lot)

/-- Whether the head of the remaining input fails a predicate (true for
empty input): the condition under which a token scan stops exactly. -/
def headNot (P : Char → Bool) : List Char → Bool
  | [] => true
  | ch :: _ => !(P ch)

/-- The boundary condition after a rendered number: the next character is
neither a digit nor a point. -/
def numBoundary : List Char → Bool
  | [] => true
  | ch :: _ => !(isDigitChar ch) && !(ch == '.')

theorem beq_false_of_pred {P : Char → Bool} {a b : Char} (h1 : P a = true)
    (h2 : P b = false) : (a == b) = false := by
  by_cases hx : (a == b) = true
  · obtain heq : a = b := by simpa using hx
    rw [heq, h2] at h1
    cases h1
  · rwa [Bool.not_eq_true] at hx

theorem takeWhile_append_all {P : Char → Bool} {xs : List Char}
    (rest : List Char) (hxs : xs.all P = true) (hrest : headNot P rest = true) :
    (xs ++ rest).takeWhile P = xs ∧ (xs ++ rest).dropWhile P = rest := by
  induction xs with
  | nil =>
    simp only [List.nil_append]
    cases rest with
    | nil => exact ⟨rfl, rfl⟩
    | cons r t =>
      have hr : P r = false := by simpa [headNot] using hrest
      simp [List.takeWhile_cons, List.dropWhile_cons, hr]
  | cons x xs ih =>
    rw [List.all_cons, Bool.and_eq_true] at hxs
    have := ih hxs.2
    simp [List.takeWhile_cons, List.dropWhile_cons, hxs.1, this.1, this.2]

theorem digitsVal_from (init : Nat) (l : List Char) :
    l.foldl (fun a ch => 10 * a + (ch.toNat - 48)) init
      = init * 10 ^ l.length + digitsVal l := by
  induction l generalizing init with
  | nil => simp [digitsVal]
  | cons ch t ih =>
    have hexp : digitsVal (ch :: t)
        = (10 * 0 + (ch.toNat - 48)) * 10 ^ t.length + digitsVal t := by
      show t.foldl _ (10 * 0 + (ch.toNat - 48)) = _
      exact ih _
    simp only [List.foldl_cons, List.length_cons]
    rw [ih, hexp]
    ring

theorem digitsVal_append (a b : List Char) :
    digitsVal (a ++ b) = digitsVal a * 10 ^ b.length + digitsVal b := by
  unfold digitsVal
  rw [List.foldl_append]
  exact digitsVal_from _ b

theorem digChar_toNat {d : Nat} (h : d < 10) : (digChar d).toNat = 48 + d := by
  interval_cases d <;> decide

theorem digChar_isDigit {d : Nat} (h : d < 10) : isDigitChar (digChar d) = true := by
  interval_cases d <;> decide

theorem digitsVal_rev_map (L : List Nat) (h : ∀ d ∈ L, d < 10) :
    digitsVal ((L.map digChar).reverse) = Nat.ofDigits 10 L := by
  induction L with
  | nil => rfl
  | cons d t ih =>
    simp only [List.map_cons, List.reverse_cons]
    rw [digitsVal_append]
    have hd : d < 10 := h d (List.mem_cons_self d t)
    have hv : digitsVal [digChar d] = d := by
      unfold digitsVal
      simp only [List.foldl_cons, List.foldl_nil]
      rw [digChar_toNat hd]
      omega
    rw [hv, ih (fun x hx => h x (List.mem_cons_of_mem d hx))]
    rw [Nat.ofDigits_cons]
    simp only [List.length_singleton]
    ring

theorem natDigs_val (n : Nat) : digitsVal (natDigs n) = n := by
  rw [natDigs_eq]
  rw [digitsVal_rev_map _ (fun d hd => Nat.digits_lt_base (by norm_num) hd)]
  exact Nat.ofDigits_digits 10 n

theorem digitsVal_replicate_zero (k : Nat) (l : List Char) :
    digitsVal (List.replicate k '0' ++ l) = digitsVal l := by
  induction k with
  | zero => rfl
  | succ k ih =>
    rw [List.replicate_succ, List.cons_append]
    unfold digitsVal at ih ⊢
    simp only [List.foldl_cons]
    have h0 : 10 * 0 + ('0'.toNat - 48) = 0 := by decide
    rw [h0]
    exact ih

theorem padDigits_val (n k : Nat) : digitsVal (padDigits n k) = n := by
  unfold padDigits
  rw [digitsVal_replicate_zero, natDigs_val]

theorem natDigs_all (n : Nat) : (natDigs n).all isDigitChar = true := by
  rw [natDigs_eq, List.all_eq_true]
  intro ch hch
  rw [List.mem_reverse] at hch
  rw [List.mem_map] at hch
  obtain ⟨d, hd, hdc⟩ := hch
  rw [← hdc]
  exact digChar_isDigit (Nat.digits_lt_base (by norm_num) hd)

theorem padDigits_all (n k : Nat) : (padDigits n k).all isDigitChar = true := by
  unfold padDigits
  rw [List.all_append, Bool.and_eq_true]
  refine ⟨?_, natDigs_all n⟩
  rw [List.all_eq_true]
  intro ch hch
  rw [List.eq_of_mem_replicate hch]
  decide

theorem padDigits_length (n k : Nat) :
    (padDigits n k).length = max k (natDigs n).length := by
  unfold padDigits
  rw [List.length_append, List.length_replicate]
  omega

theorem natDigs_length_le {n k : Nat} (h : n < 10 ^ k) :
    (natDigs n).length ≤ k := by
  rw [natDigs_eq, List.length_reverse, List.length_map]
  by_cases hn : n = 0
  · subst hn
    simp
  · by_contra hlt
    push_neg at hlt
    have h1 := Nat.base_pow_length_digits_le 10 n (by norm_num) hn
    have h2 : 10 ^ (k + 1) ≤ 10 ^ (Nat.digits 10 n).length :=
      Nat.pow_le_pow_right (by norm_num) hlt
    have h3 : 10 ^ (k + 1) ≤ 10 * n := le_trans h2 h1
    rw [pow_succ] at h3
    have h4 : 10 ^ k ≤ n := by
      have := Nat.le_of_mul_le_mul_right (by omega : 10 ^ k * 10 ≤ n * 10) (by norm_num)
      omega
    omega

theorem padDigits_length_exact {n k : Nat} (h : n < 10 ^ k) :
    (padDigits n k).length = k := by
  rw [padDigits_length]
  have := natDigs_length_le h
  omega

theorem padDigits_nonempty (n k : Nat) (hk : 1 ≤ k) : padDigits n k ≠ [] := by
  intro hcon
  have := padDigits_length n k
  rw [hcon] at this
  simp at this
  omega

theorem headNot_of_numBoundary {rest : List Char} (h : numBoundary rest = true) :
    headNot isDigitChar rest = true := by
  cases rest with
  | nil => rfl
  | cons ch t =>
    have := h
    unfold numBoundary at this
    rw [Bool.and_eq_true] at this
    exact this.1

theorem dot_of_numBoundary {ch : Char} {t : List Char}
    (h : numBoundary (ch :: t) = true) : (ch == '.') = false := by
  unfold numBoundary at h
  rw [Bool.and_eq_true] at h
  have := h.2
  rwa [Bool.not_eq_true'] at this

theorem all_take {P : Char → Bool} {xs : List Char} (n : Nat)
    (h : xs.all P = true) : (xs.take n).all P = true := by
  rw [List.all_eq_true] at h ⊢
  intro x hx
  exact h x (List.mem_of_mem_take hx)

theorem all_drop {P : Char → Bool} {xs : List Char} (n : Nat)
    (h : xs.all P = true) : (xs.drop n).all P = true := by
  rw [List.all_eq_true] at h ⊢
  intro x hx
  exact h x (List.mem_of_mem_drop hx)

theorem isEmpty_false_of_ne_nil {xs : List Char} (h : xs ≠ []) :
    xs.isEmpty = false := by
  cases xs with
  | nil => exact absurd rfl h
  | cons a b => rfl

theorem headNot_cons (P : Char → Bool) (ch : Char) (t : List Char) :
    headNot P (ch :: t) = !(P ch) := rfl

theorem parseUnsigned_core (d : Decimal) (rest : List Char)
    (hrest : numBoundary rest = true) :
    parseUnsigned (formatDec.decCore d ++ rest)
      = some ((d.man.natAbs, d.exp), rest) := by
  have hdig : headNot isDigitChar rest = true := headNot_of_numBoundary hrest
  by_cases hexp : d.exp = 0
  · have hcore : formatDec.decCore d = padDigits d.man.natAbs 1 := by
      unfold formatDec.decCore
      rw [if_pos hexp]
    rw [hcore]
    obtain ⟨ht, hd⟩ := takeWhile_append_all rest (padDigits_all d.man.natAbs 1) hdig
    unfold parseUnsigned
    rw [ht, hd]
    have hne : (padDigits d.man.natAbs 1).isEmpty = false :=
      isEmpty_false_of_ne_nil (padDigits_nonempty _ 1 le_rfl)
    rw [hne]
    simp only [Bool.false_eq_true, if_false]
    cases rest with
    | nil =>
      simp only [parseUnsignedTail]
      rw [padDigits_val, hexp]
    | cons ch r2 =>
      simp only [parseUnsignedTail]
      rw [dot_of_numBoundary hrest]
      simp only [Bool.false_eq_true, if_false]
      rw [padDigits_val, hexp]
  · have hlen : d.exp + 1 ≤ (padDigits d.man.natAbs (d.exp + 1)).length := by
      rw [padDigits_length]
      omega
    have hi1 : 1 ≤ (padDigits d.man.natAbs (d.exp + 1)).length - d.exp := by omega
    have hcore : formatDec.decCore d
        = (padDigits d.man.natAbs (d.exp + 1)).take
            ((padDigits d.man.natAbs (d.exp + 1)).length - d.exp)
          ++ '.' :: (padDigits d.man.natAbs (d.exp + 1)).drop
            ((padDigits d.man.natAbs (d.exp + 1)).length - d.exp) := by
      unfold formatDec.decCore
      rw [if_neg hexp]
    rw [hcore]
    rw [List.append_assoc, List.cons_append]
    obtain ⟨ht, hd⟩ := takeWhile_append_all
      ('.' :: ((padDigits d.man.natAbs (d.exp + 1)).drop
        ((padDigits d.man.natAbs (d.exp + 1)).length - d.exp) ++ rest))
      (all_take ((padDigits d.man.natAbs (d.exp + 1)).length - d.exp)
        (padDigits_all d.man.natAbs (d.exp + 1)))
      (by rw [headNot_cons]; decide)
    obtain ⟨ht2, hd2⟩ := takeWhile_append_all rest
      (all_drop ((padDigits d.man.natAbs (d.exp + 1)).length - d.exp)
        (padDigits_all d.man.natAbs (d.exp + 1))) hdig
    unfold parseUnsigned
    rw [ht, hd]
    have htake_len : ((padDigits d.man.natAbs (d.exp + 1)).take
        ((padDigits d.man.natAbs (d.exp + 1)).length - d.exp)).length
        = (padDigits d.man.natAbs (d.exp + 1)).length - d.exp := by
      rw [List.length_take]
      omega
    have hne : ((padDigits d.man.natAbs (d.exp + 1)).take
        ((padDigits d.man.natAbs (d.exp + 1)).length - d.exp)).isEmpty = false := by
      apply isEmpty_false_of_ne_nil
      intro hcon
      rw [hcon] at htake_len
      simp at htake_len
      omega
    rw [hne]
    simp only [Bool.false_eq_true, if_false]
    simp only [parseUnsignedTail]
    have hdot : ('.' == '.') = true := by decide
    rw [hdot]
    simp only [if_true]
    rw [ht2, hd2]
    have hdrop_len : ((padDigits d.man.natAbs (d.exp + 1)).drop
        ((padDigits d.man.natAbs (d.exp + 1)).length - d.exp)).length = d.exp := by
      rw [List.length_drop]
      omega
    have hne2 : ((padDigits d.man.natAbs (d.exp + 1)).drop
        ((padDigits d.man.natAbs (d.exp + 1)).length - d.exp)).isEmpty = false := by
      apply isEmpty_false_of_ne_nil
      intro hcon
      rw [hcon] at hdrop_len
      simp at hdrop_len
      omega
    rw [hne2]
    simp only [Bool.false_eq_true, if_false]
    rw [List.take_append_drop, padDigits_val, hdrop_len]

theorem decCore_head (d : Decimal) :
    ∃ ch t, formatDec.decCore d = ch :: t ∧ isDigitChar ch = true := by
  by_cases hexp : d.exp = 0
  · have hcore : formatDec.decCore d = padDigits d.man.natAbs 1 := by
      unfold formatDec.decCore
      rw [if_pos hexp]
    cases hp : padDigits d.man.natAbs 1 with
    | nil => exact absurd hp (padDigits_nonempty _ 1 le_rfl)
    | cons ch t =>
      refine ⟨ch, t, hcore.trans hp, ?_⟩
      have := padDigits_all d.man.natAbs 1
      rw [hp, List.all_cons, Bool.and_eq_true] at this
      exact this.1
  · have hlen : d.exp + 1 ≤ (padDigits d.man.natAbs (d.exp + 1)).length := by
      rw [padDigits_length]
      omega
    have hcore : formatDec.decCore d
        = (padDigits d.man.natAbs (d.exp + 1)).take
            ((padDigits d.man.natAbs (d.exp + 1)).length - d.exp)
          ++ '.' :: (padDigits d.man.natAbs (d.exp + 1)).drop
            ((padDigits d.man.natAbs (d.exp + 1)).length - d.exp) := by
      unfold formatDec.decCore
      rw [if_neg hexp]
    have htake_len : ((padDigits d.man.natAbs (d.exp + 1)).take
        ((padDigits d.man.natAbs (d.exp + 1)).length - d.exp)).length
        = (padDigits d.man.natAbs (d.exp + 1)).length - d.exp := by
      rw [List.length_take]
      omega
    cases hp : (padDigits d.man.natAbs (d.exp + 1)).take
        ((padDigits d.man.natAbs (d.exp + 1)).length - d.exp) with
    | nil =>
      rw [hp] at htake_len
      simp at htake_len
      omega
    | cons ch t =>
      refine ⟨ch, t ++ '.' :: (padDigits d.man.natAbs (d.exp + 1)).drop
        ((padDigits d.man.natAbs (d.exp + 1)).length - d.exp), ?_, ?_⟩
      · rw [hcore, hp]
        rfl
      · have := all_take ((padDigits d.man.natAbs (d.exp + 1)).length - d.exp)
          (padDigits_all d.man.natAbs (d.exp + 1))
        rw [hp, List.all_cons, Bool.and_eq_true] at this
        exact this.1

theorem parseNumber_format (d : Decimal) (rest : List Char)
    (hrest : numBoundary rest = true) :
    parseNumber (formatDec d ++ rest) = some (d, rest) := by
  by_cases hman : d.man < 0
  · have hfmt : formatDec d = '-' :: formatDec.decCore d := by
      unfold formatDec
      rw [if_pos hman]
    rw [hfmt, List.cons_append]
    simp only [parseNumber]
    have hm : ('-' == '-') = true := by decide
    rw [hm]
    simp only [if_true]
    rw [parseUnsigned_core d rest hrest]
    simp only [parseNumberTail, if_true]
    have hval : -(d.man.natAbs : Int) = d.man := by omega
    rw [hval]
  · have hfmt : formatDec d = formatDec.decCore d := by
      unfold formatDec
      rw [if_neg hman]
    obtain ⟨ch, t, hcons, hdig⟩ := decCore_head d
    rw [hfmt, hcons, List.cons_append]
    simp only [parseNumber]
    rw [beq_false_of_pred hdig (by decide : isDigitChar '-' = false)]
    rw [beq_false_of_pred hdig (by decide : isDigitChar '+' = false)]
    simp only [Bool.false_eq_true, if_false]
    rw [← List.cons_append, ← hcons]
    rw [parseUnsigned_core d rest hrest]
    simp only [parseNumberTail, Bool.false_eq_true, if_false]
    have hval : (d.man.natAbs : Int) = d.man := by omega
    rw [hval]

theorem parseCurrency_format (c : String) (rest : List Char)
    (hc : validCurrency c = true) (hrest : headNot isCurrChar rest = true) :
    parseCurrency (c.data ++ rest) = some (c, rest) := by
  unfold validCurrency at hc
  rw [Bool.and_eq_true] at hc
  obtain ⟨hne, hall⟩ := hc
  obtain ⟨ht, hd⟩ := takeWhile_append_all rest hall hrest
  unfold parseCurrency
  rw [ht, hd]
  have hne2 : c.data.isEmpty = false := by
    rwa [Bool.not_eq_true'] at hne
  rw [hne2]
  simp only [Bool.false_eq_true, if_false]

theorem parseDate_format (dt : Date) (rest : List Char)
    (hdt : validDate dt = true) (hrest : headNot isDigitChar rest = true) :
    parseDate (formatDate dt ++ rest) = some (dt, rest) := by
  unfold validDate at hdt
  rw [Bool.and_eq_true, Bool.and_eq_true] at hdt
  have hy : dt.year < 10000 := by
    have := hdt.1.1
    simpa using this
  have hm : dt.month < 100 := by
    have := hdt.1.2
    simpa using this
  have hd : dt.day < 100 := by
    have := hdt.2
    simpa using this
  have hshape : formatDate dt ++ rest
      = padDigits dt.year 4
        ++ '-' :: (padDigits dt.month 2
          ++ '-' :: (padDigits dt.day 2 ++ rest)) := by
    unfold formatDate
    simp [List.append_assoc]
  rw [hshape]
  obtain ⟨ht1, hd1⟩ := takeWhile_append_all
    ('-' :: (padDigits dt.month 2 ++ '-' :: (padDigits dt.day 2 ++ rest)))
    (padDigits_all dt.year 4) (by rw [headNot_cons]; decide)
  obtain ⟨ht2, hd2⟩ := takeWhile_append_all
    ('-' :: (padDigits dt.day 2 ++ rest))
    (padDigits_all dt.month 2) (by rw [headNot_cons]; decide)
  obtain ⟨ht3, hd3⟩ := takeWhile_append_all rest (padDigits_all dt.day 2) hrest
  unfold parseDate
  rw [ht1, hd1]
  rw [padDigits_length_exact (by omega : dt.year < 10 ^ 4)]
  rw [show ((4 : Nat) == 4) = true from rfl]
  simp only [if_true]
  simp only [parseDateTail1]
  have hm1 : ('-' == '-') = true := by decide
  rw [hm1]
  simp only [if_true]
  rw [ht2, hd2]
  rw [padDigits_length_exact (by omega : dt.month < 10 ^ 2)]
  rw [show ((2 : Nat) == 2) = true from rfl]
  simp only [if_true]
  simp only [parseDateTail2]
  rw [hm1]
  simp only [if_true]
  rw [ht3, hd3]
  rw [padDigits_length_exact (by omega : dt.day < 10 ^ 2)]
  rw [show ((2 : Nat) == 2) = true from rfl]
  simp only [if_true]
  rw [padDigits_val, padDigits_val, padDigits_val]

theorem numBoundary_cons (ch : Char) (t : List Char) :
    numBoundary (ch :: t) = (!(isDigitChar ch) && !(ch == '.')) := rfl

theorem dropSpaces_space (s : List Char) : dropSpaces (' ' :: s) = dropSpaces s := by
  simp [dropSpaces, List.dropWhile_cons]

theorem dropSpaces_noop {s : List Char}
    (h : headNot (fun ch => ch == ' ') s = true) : dropSpaces s = s := by
  cases s with
  | nil => rfl
  | cons ch t =>
    rw [headNot_cons, Bool.not_eq_true'] at h
    simp [dropSpaces, List.dropWhile_cons, h]

theorem padDigits_head (n k : Nat) (hk : 1 ≤ k) :
    ∃ ch t, padDigits n k = ch :: t ∧ isDigitChar ch = true := by
  cases hp : padDigits n k with
  | nil => exact absurd hp (padDigits_nonempty n k hk)
  | cons ch t =>
    refine ⟨ch, t, rfl, ?_⟩
    have := padDigits_all n k
    rw [hp, List.all_cons, Bool.and_eq_true] at this
    exact this.1

theorem formatDec_head (d : Decimal) :
    ∃ ch t, formatDec d = ch :: t ∧ (ch == ' ') = false ∧ (ch == ',') = false := by
  by_cases hman : d.man < 0
  · refine ⟨'-', formatDec.decCore d, ?_, by decide, by decide⟩
    unfold formatDec
    rw [if_pos hman]
  · obtain ⟨ch, t, hcons, hdig⟩ := decCore_head d
    refine ⟨ch, t, ?_, ?_, ?_⟩
    · unfold formatDec
      rw [if_neg hman]
      exact hcons
    · exact beq_false_of_pred hdig (by decide : isDigitChar ' ' = false)
    · exact beq_false_of_pred hdig (by decide : isDigitChar ',' = false)

theorem currency_head {c : String} (hc : validCurrency c = true) :
    ∃ ch t, c.data = ch :: t ∧ isCurrChar ch = true := by
  unfold validCurrency at hc
  rw [Bool.and_eq_true] at hc
  obtain ⟨hne, hall⟩ := hc
  cases hp : c.data with
  | nil =>
    rw [hp] at hne
    cases hne
  | cons ch t =>
    refine ⟨ch, t, rfl, ?_⟩
    rw [hp, List.all_cons, Bool.and_eq_true] at hall
    exact hall.1

theorem formatDate_head (dt : Date) :
    ∃ ch t, formatDate dt = ch :: t ∧ isDigitChar ch = true := by
  obtain ⟨ch, t, hcons, hdig⟩ := padDigits_head dt.year 4 (by norm_num)
  refine ⟨ch, t ++ '-' :: (padDigits dt.month 2 ++ '-' :: padDigits dt.day 2),
    ?_, hdig⟩
  unfold formatDate
  rw [hcons]
  rfl

theorem dropSpaces_headDigit {x : List Char} {rest : List Char} (d : Decimal)
    (hx : x = formatDec d ++ rest) : dropSpaces x = x := by
  obtain ⟨ch, t, hcons, hsp, _⟩ := formatDec_head d
  subst hx
  rw [hcons, List.cons_append]
  apply dropSpaces_noop
  rw [headNot_cons, hsp]
  rfl

theorem parsePosition_space (s : List Char) :
    parsePosition (' ' :: s) = parsePosition s := by
  unfold parsePosition
  rw [dropSpaces_space]

/-- Round trip of one rendered position (for a representable lot). -/
theorem parsePosition_format (p : Position) (hwf : wfLot p.lot = true) :
    parsePosition (formatPosition p) = some p := by
  obtain ⟨⟨cur, cost, adate⟩, n⟩ := p
  unfold wfLot at hwf
  rw [Bool.and_eq_true, Bool.and_eq_true] at hwf
  have hcur : validCurrency cur = true := hwf.1.1
  obtain ⟨cch, ct, hccons, hcch⟩ := currency_head hcur
  cases cost with
  | none =>
    have hdate : adate = none := by
      have := hwf.1.2
      simp only at this
      cases adate with
      | none => rfl
      | some dt => cases this
    subst hdate
    have hfmt : formatPosition ⟨⟨cur, none, none⟩, n⟩
        = formatDec n ++ ' ' :: cur.data := by
      unfold formatPosition
      simp
    rw [hfmt]
    unfold parsePosition
    rw [dropSpaces_headDigit n rfl]
    rw [parseNumber_format n (' ' :: cur.data)
      (by rw [numBoundary_cons]; decide)]
    simp only [parsePosNum]
    rw [dropSpaces_space]
    rw [dropSpaces_noop (by
      rw [hccons, headNot_cons,
        beq_false_of_pred hcch (by decide : isCurrChar ' ' = false)]
      rfl)]
    rw [show cur.data = cur.data ++ [] from (List.append_nil cur.data).symm]
    rw [parseCurrency_format cur [] hcur rfl]
    simp only [parsePosCur]
    rfl
  | some cst =>
    have hccur : validCurrency cst.currency = true := hwf.1.2
    obtain ⟨kch, kt, hkcons, hkch⟩ := currency_head hccur
    cases adate with
    | none =>
      have hfmt : formatPosition ⟨⟨cur, some cst, none⟩, n⟩
          = formatDec n ++ ' ' :: (cur.data ++ ' ' :: lbrace ::
              (formatDec cst.number ++ ' ' :: (cst.currency.data ++ [rbrace]))) := by
        unfold formatPosition
        simp [List.append_assoc]
      rw [hfmt]
      unfold parsePosition
      rw [dropSpaces_headDigit n rfl]
      rw [parseNumber_format n _ (by rw [numBoundary_cons]; decide)]
      simp only [parsePosNum]
      rw [dropSpaces_space]
      rw [dropSpaces_noop (by
        rw [hccons, List.cons_append, headNot_cons,
          beq_false_of_pred hcch (by decide : isCurrChar ' ' = false)]
        rfl)]
      rw [parseCurrency_format cur _ hcur (by rw [headNot_cons]; decide)]
      simp only [parsePosCur]
      rw [dropSpaces_space]
      rw [dropSpaces_noop (by rw [headNot_cons]; decide)]
      simp only [parsePosAfterCur]
      rw [show (lbrace == lbrace) = true from by decide]
      simp only [if_true]
      rw [dropSpaces_headDigit cst.number rfl]
      rw [parseNumber_format cst.number _ (by rw [numBoundary_cons]; decide)]
      simp only [parsePosCost1]
      rw [dropSpaces_space]
      rw [dropSpaces_noop (by
        rw [hkcons, List.cons_append, headNot_cons,
          beq_false_of_pred hkch (by decide : isCurrChar ' ' = false)]
        rfl)]
      rw [parseCurrency_format cst.currency [rbrace] hccur
        (by rw [headNot_cons]; decide)]
      simp only [parsePosCost2]
      rw [dropSpaces_noop (by rw [headNot_cons]; decide)]
      simp only [parsePosAfterCost]
      rw [show (rbrace == rbrace) = true from by decide]
      simp only [if_true]
      rw [show dropSpaces ([] : List Char) = [] from rfl]
      rfl
    | some dt =>
      have hdt : validDate dt = true := by
        have := hwf.2
        simpa using this
      have hfmt : formatPosition ⟨⟨cur, some cst, some dt⟩, n⟩
          = formatDec n ++ ' ' :: (cur.data ++ ' ' :: lbrace ::
              (formatDec cst.number ++ ' ' :: (cst.currency.data
                ++ ' ' :: '/' :: ' ' :: (formatDate dt ++ [rbrace])))) := by
        unfold formatPosition
        simp [List.append_assoc]
      rw [hfmt]
      unfold parsePosition
      rw [dropSpaces_headDigit n rfl]
      rw [parseNumber_format n _ (by rw [numBoundary_cons]; decide)]
      simp only [parsePosNum]
      rw [dropSpaces_space]
      rw [dropSpaces_noop (by
        rw [hccons, List.cons_append, headNot_cons,
          beq_false_of_pred hcch (by decide : isCurrChar ' ' = false)]
        rfl)]
      rw [parseCurrency_format cur _ hcur (by rw [headNot_cons]; decide)]
      simp only [parsePosCur]
      rw [dropSpaces_space]
      rw [dropSpaces_noop (by rw [headNot_cons]; decide)]
      simp only [parsePosAfterCur]
      rw [show (lbrace == lbrace) = true from by decide]
      simp only [if_true]
      rw [dropSpaces_headDigit cst.number rfl]
      rw [parseNumber_format cst.number _ (by rw [numBoundary_cons]; decide)]
      simp only [parsePosCost1]
      rw [dropSpaces_space]
      rw [dropSpaces_noop (by
        rw [hkcons, List.cons_append, headNot_cons,
          beq_false_of_pred hkch (by decide : isCurrChar ' ' = false)]
        rfl)]
      rw [parseCurrency_format cst.currency _ hccur
        (by rw [headNot_cons]; decide)]
      simp only [parsePosCost2]
      rw [dropSpaces_space]
      rw [dropSpaces_noop (by rw [headNot_cons]; decide)]
      simp only [parsePosAfterCost]
      rw [show ('/' == rbrace) = false from by decide]
      rw [show ('/' == '/') = true from by decide]
      simp only [Bool.false_eq_true, if_false, if_true]
      rw [dropSpaces_space]
      rw [dropSpaces_noop (by
        obtain ⟨dch, dtl, hdcons, hdch⟩ := formatDate_head dt
        rw [hdcons, List.cons_append, headNot_cons,
          beq_false_of_pred hdch (by decide : isDigitChar ' ' = false)]
        rfl)]
      rw [parseDate_format dt [rbrace] hdt (by rw [headNot_cons]; decide)]
      simp only [parsePosAfterDate]
      rw [dropSpaces_noop (by rw [headNot_cons]; decide)]
      simp only [parsePosClose]
      rw [show (rbrace == rbrace) = true from by decide]
      rw [show dropSpaces ([] : List Char) = [] from rfl]
      rfl

/-- No comma occurs in the string (so comma-splitting cannot cut it). -/
def noComma (l : List Char) : Bool := l.all (fun ch => !(ch == ','))

theorem all_imp {P Q : Char → Bool} (h : ∀ ch, P ch = true → Q ch = true)
    {l : List Char} (hl : l.all P = true) : l.all Q = true := by
  rw [List.all_eq_true] at hl ⊢
  exact fun x hx => h x (hl x hx)

theorem digit_not_comma : ∀ ch, isDigitChar ch = true → (!(ch == ',')) = true := by
  intro ch h
  rw [beq_false_of_pred h (by decide : isDigitChar ',' = false)]
  rfl

theorem curr_not_comma : ∀ ch, isCurrChar ch = true → (!(ch == ',')) = true := by
  intro ch h
  rw [beq_false_of_pred h (by decide : isCurrChar ',' = false)]
  rfl

theorem noComma_append {a b : List Char} (ha : noComma a = true)
    (hb : noComma b = true) : noComma (a ++ b) = true := by
  unfold noComma at ha hb ⊢
  rw [List.all_append, ha, hb]
  rfl

theorem noComma_cons {ch : Char} {l : List Char} (hch : (!(ch == ',')) = true)
    (hl : noComma l = true) : noComma (ch :: l) = true := by
  unfold noComma at hl ⊢
  rw [List.all_cons, hch, hl]
  rfl

theorem noComma_formatDec (d : Decimal) : noComma (formatDec d) = true := by
  have hcore : noComma (formatDec.decCore d) = true := by
    unfold formatDec.decCore
    by_cases hexp : d.exp = 0
    · rw [if_pos hexp]
      exact all_imp digit_not_comma (padDigits_all _ 1)
    · rw [if_neg hexp]
      refine noComma_append
        (all_imp digit_not_comma (all_take _ (padDigits_all _ _))) ?_
      refine noComma_cons (by decide) ?_
      exact all_imp digit_not_comma (all_drop _ (padDigits_all _ _))
  unfold formatDec
  by_cases hman : d.man < 0
  · rw [if_pos hman]
    exact noComma_cons (by decide) hcore
  · rw [if_neg hman]
    exact hcore

theorem noComma_formatDate (dt : Date) : noComma (formatDate dt) = true := by
  unfold formatDate
  refine noComma_append (all_imp digit_not_comma (padDigits_all _ _)) ?_
  refine noComma_cons (by decide) ?_
  refine noComma_append (all_imp digit_not_comma (padDigits_all _ _)) ?_
  refine noComma_cons (by decide) ?_
  exact all_imp digit_not_comma (padDigits_all _ _)

theorem noComma_formatPosition (p : Position) (hwf : wfLot p.lot = true) :
    noComma (formatPosition p) = true := by
  obtain ⟨⟨cur, cost, adate⟩, n⟩ := p
  unfold wfLot at hwf
  rw [Bool.and_eq_true, Bool.and_eq_true] at hwf
  have hcur : validCurrency cur = true := hwf.1.1
  have hcurdata : noComma cur.data = true := by
    unfold validCurrency at hcur
    rw [Bool.and_eq_true] at hcur
    exact all_imp curr_not_comma hcur.2
  cases cost with
  | none =>
    have hfmt : formatPosition ⟨⟨cur, none, adate⟩, n⟩
        = formatDec n ++ ' ' :: cur.data := by
      unfold formatPosition
      simp
    rw [hfmt]
    exact noComma_append (noComma_formatDec n) (noComma_cons (by decide) hcurdata)
  | some cst =>
    have hccur : validCurrency cst.currency = true := hwf.1.2
    have hccurdata : noComma cst.currency.data = true := by
      unfold validCurrency at hccur
      rw [Bool.and_eq_true] at hccur
      exact all_imp curr_not_comma hccur.2
    cases adate with
    | none =>
      have hfmt : formatPosition ⟨⟨cur, some cst, none⟩, n⟩
          = formatDec n ++ ' ' :: (cur.data ++ ' ' :: lbrace ::
              (formatDec cst.number ++ ' ' :: (cst.currency.data ++ [rbrace]))) := by
        unfold formatPosition
        simp [List.append_assoc]
      rw [hfmt]
      refine noComma_append (noComma_formatDec n) ?_
      refine noComma_cons (by decide) ?_
      refine noComma_append hcurdata ?_
      refine noComma_cons (by decide) ?_
      refine noComma_cons (by decide) ?_
      refine noComma_append (noComma_formatDec cst.number) ?_
      refine noComma_cons (by decide) ?_
      exact noComma_append hccurdata (by decide)
    | some dt =>
      have hfmt : formatPosition ⟨⟨cur, some cst, some dt⟩, n⟩
          = formatDec n ++ ' ' :: (cur.data ++ ' ' :: lbrace ::
              (formatDec cst.number ++ ' ' :: (cst.currency.data
                ++ ' ' :: '/' :: ' ' :: (formatDate dt ++ [rbrace])))) := by
        unfold formatPosition
        simp [List.append_assoc]
      rw [hfmt]
      refine noComma_append (noComma_formatDec n) ?_
      refine noComma_cons (by decide) ?_
      refine noComma_append hcurdata ?_
      refine noComma_cons (by decide) ?_
      refine noComma_cons (by decide) ?_
      refine noComma_append (noComma_formatDec cst.number) ?_
      refine noComma_cons (by decide) ?_
      refine noComma_append hccurdata ?_
      refine noComma_cons (by decide) ?_
      refine noComma_cons (by decide) ?_
      refine noComma_cons (by decide) ?_
      exact noComma_append (noComma_formatDate dt) (by decide)

theorem splitComma_nocomma {t : List Char} (h : noComma t = true) :
    splitComma t = [t] := by
  induction t with
  | nil => rfl
  | cons ch r ih =>
    unfold noComma at h
    rw [List.all_cons, Bool.and_eq_true] at h
    have hch : (ch == ',') = false := by
      have := h.1
      rwa [Bool.not_eq_true'] at this
    simp only [splitComma, hch, Bool.false_eq_true, if_false]
    rw [ih h.2]
    simp only [consHead]

theorem splitComma_append {t r : List Char} (h : noComma t = true) :
    splitComma (t ++ ',' :: r) = t :: splitComma r := by
  induction t with
  | nil =>
    simp only [List.nil_append, splitComma,
      show (',' == ',') = true from by decide, if_true]
  | cons ch t' ih =>
    unfold noComma at h
    rw [List.all_cons, Bool.and_eq_true] at h
    have hch : (ch == ',') = false := by
      have := h.1
      rwa [Bool.not_eq_true'] at this
    rw [List.cons_append]
    simp only [splitComma, hch, Bool.false_eq_true, if_false]
    rw [ih h.2]
    simp only [consHead]

theorem splitComma_space {x : List Char} {h : List Char} {tl : List (List Char)}
    (hx : splitComma x = h :: tl) :
    splitComma (' ' :: x) = (' ' :: h) :: tl := by
  simp only [splitComma, show (' ' == ',') = false from by decide,
    Bool.false_eq_true, if_false]
  rw [hx]
  simp only [consHead]

theorem split_join (t : List Char) (ts : List (List Char))
    (h : noComma t = true) (hts : ∀ x ∈ ts, noComma x = true) :
    splitComma (joinComma (t :: ts)) = t :: ts.map (fun x => ' ' :: x) := by
  induction ts generalizing t with
  | nil => exact splitComma_nocomma h
  | cons t2 ts' ih =>
    have hjoin : joinComma (t :: t2 :: ts') = t ++ ',' :: ' ' :: joinComma (t2 :: ts') := rfl
    rw [hjoin, splitComma_append h]
    have h2 := ih t2 (hts t2 (List.mem_cons_self t2 ts'))
      (fun x hx => hts x (List.mem_cons_of_mem t2 hx))
    rw [splitComma_space h2]
    rfl

theorem distinct_cross {xs ys : List Position}
    (h : distinctLots (xs ++ ys) = true) :
    ∀ q ∈ xs, ∀ p ∈ ys, q.lot.beq p.lot = false := by
  induction xs with
  | nil => intro q hq; cases hq
  | cons x xs' ih =>
    rw [List.cons_append, distinctLots, Bool.and_eq_true] at h
    intro q hq p hp
    rcases List.mem_cons.mp hq with heq | hmem
    · subst heq
      have := (List.all_eq_true.mp h.1) p (List.mem_append_right xs' hp)
      rwa [Bool.not_eq_true'] at this
    · exact ih h.2 q hmem p hp

theorem storeList_no_match {l : List Position} {L : Lot} {n : Decimal}
    (h : ∀ q ∈ l, q.lot.beq L = false) : storeList l L n = l ++ [⟨L, n⟩] := by
  induction l with
  | nil => rfl
  | cons q qs ih =>
    have hq := h q (List.mem_cons_self q qs)
    simp only [storeList, hq, Bool.false_eq_true, if_false]
    rw [ih (fun r hr => h r (List.mem_cons_of_mem q hr))]
    rfl

theorem mergeStep_fresh {acc : Inventory} {p : Position}
    (h : ∀ q ∈ acc.positions, q.lot.beq p.lot = false) :
    mergeStep acc p = ⟨acc.positions ++ [p]⟩ := by
  unfold mergeStep Inventory.addPure
  have hfind : acc.get_position p.lot = none := by
    unfold Inventory.get_position
    rw [List.find?_eq_none]
    intro q hq
    rw [h q hq]
    exact Bool.false_ne_true
  have hprior : acc.priorNumber p.lot = Decimal.zero := by
    unfold Inventory.priorNumber
    rw [hfind]
  rw [hprior, Decimal.zero_add]
  unfold Inventory.store
  rw [storeList_no_match h]

theorem foldl_fresh (l : List Position) (acc : Inventory)
    (h : distinctLots (acc.positions ++ l) = true) :
    l.foldl mergeStep acc = ⟨acc.positions ++ l⟩ := by
  induction l generalizing acc with
  | nil =>
    rw [List.append_nil]
    rfl
  | cons p ps ih =>
    simp only [List.foldl_cons]
    have hstep : mergeStep acc p = ⟨acc.positions ++ [p]⟩ :=
      mergeStep_fresh (fun q hq =>
        distinct_cross h q hq p (List.mem_cons_self p ps))
    rw [hstep]
    have hre : (acc.positions ++ [p]) ++ ps = acc.positions ++ (p :: ps) := by
      rw [List.append_assoc]
      rfl
    have h2 : distinctLots ((⟨acc.positions ++ [p]⟩ : Inventory).positions ++ ps) = true := by
      show distinctLots ((acc.positions ++ [p]) ++ ps) = true
      rw [hre]
      exact h
    rw [ih _ h2]
    show Inventory.mk ((acc.positions ++ [p]) ++ ps) = _
    rw [hre]

theorem ofPositions_self (inv : Inventory) (hc : inv.canonical = true) :
    Inventory.ofPositions inv.positions = inv := by
  rw [ofPositions_foldl]
  have h : distinctLots (Inventory.empty.positions ++ inv.positions) = true := by
    show distinctLots ([] ++ inv.positions) = true
    rw [List.nil_append]
    exact hc
  rw [foldl_fresh inv.positions Inventory.empty h]
  rfl

theorem formatPosition_head (p : Position) :
    ∃ ch t, formatPosition p = ch :: t ∧ (ch == ' ') = false
      ∧ (ch == ',') = false := by
  obtain ⟨ch, t, hcons, hsp, hcm⟩ := formatDec_head p.number
  refine ⟨ch, t ++ (' ' :: p.lot.currency.data
    ++ (match p.lot.cost with
      | none => []
      | some cst =>
        ' ' :: lbrace :: (formatDec cst.number ++ ' ' :: cst.currency.data
          ++ (match p.lot.acqDate with
             | none => []
             | some dt => ' ' :: '/' :: ' ' :: formatDate dt))
          ++ [rbrace])), ?_, hsp, hcm⟩
  unfold formatPosition
  rw [hcons]
  simp [List.append_assoc]

theorem mapM_parsePosition_spaced (ps : List Position)
    (h : ∀ p ∈ ps, wfLot p.lot = true) :
    (ps.map (fun p => ' ' :: formatPosition p)).mapM parsePosition = some ps := by
  induction ps with
  | nil => rfl
  | cons p ps' ih =>
    rw [List.map_cons, List.mapM_cons]
    rw [parsePosition_space, parsePosition_format p (h p (List.mem_cons_self p ps'))]
    rw [ih (fun q hq => h q (List.mem_cons_of_mem p hq))]
    rfl

/-- The inventory-level round trip for representable content. -/
theorem parseInventory_format (inv : Inventory) (hwf : wfInventory inv = true) :
    parseInventory (formatInventory inv) = some inv := by
  unfold wfInventory at hwf
  rw [Bool.and_eq_true] at hwf
  obtain ⟨hcanon, hall⟩ := hwf
  cases hinv : inv.positions with
  | nil =>
    have hempty : inv = Inventory.empty := by
      cases inv with
      | mk ps =>
        cases hinv
        rfl
    rw [hempty]
    rfl
  | cons p ps =>
    have hwfp : ∀ q ∈ p :: ps, wfLot q.lot = true := by
      intro q hq
      exact (List.all_eq_true.mp hall) q (hinv ▸ hq)
    obtain ⟨ch, t, hpcons, hsp, _⟩ := formatPosition_head p
    have hjoin_head : ∃ tl, formatInventory inv = ch :: tl := by
      unfold formatInventory
      rw [hinv, List.map_cons]
      cases hmap : ps.map formatPosition with
      | nil =>
        exact ⟨t, by rw [show joinComma [formatPosition p] = formatPosition p from rfl, hpcons]⟩
      | cons t2 ts =>
        refine ⟨t ++ ',' :: ' ' :: joinComma (t2 :: ts), ?_⟩
        rw [show joinComma (formatPosition p :: t2 :: ts)
          = formatPosition p ++ ',' :: ' ' :: joinComma (t2 :: ts) from rfl]
        rw [hpcons]
        rfl
    obtain ⟨tl, hhead⟩ := hjoin_head
    unfold parseInventory
    rw [hhead]
    rw [dropSpaces_noop (by rw [headNot_cons, hsp]; rfl)]
    rw [show (ch :: tl).isEmpty = false from rfl]
    simp only [Bool.false_eq_true, if_false]
    rw [← hhead]
    unfold formatInventory
    rw [hinv, List.map_cons]
    rw [split_join (formatPosition p) (ps.map formatPosition)
      (noComma_formatPosition p (hwfp p (List.mem_cons_self p ps)))
      (by
        intro x hx
        rw [List.mem_map] at hx
        obtain ⟨q, hq, hqx⟩ := hx
        rw [← hqx]
        exact noComma_formatPosition q (hwfp q (List.mem_cons_of_mem p hq)))]
    rw [List.mapM_cons]
    rw [parsePosition_format p (hwfp p (List.mem_cons_self p ps))]
    have hmm : List.map (fun x => ' ' :: x) (List.map formatPosition ps)
        = ps.map (fun q => ' ' :: formatPosition q) := by
      rw [List.map_map]
      rfl
    rw [hmm]
    rw [mapM_parsePosition_spaced ps (fun q hq => hwfp q (List.mem_cons_of_mem p hq))]
    show some (Inventory.ofPositions (p :: ps)) = some inv
    rw [← hinv, ofPositions_self inv hcanon]

/-- C8 counterexample: a canonical Inventory whose currency is not an
uppercase alphanumeric token ("usd") renders to text the grammar cannot
parse back, so `parse(format(inv)) == inv` fails for it as stated. -/
theorem claim_C8_counterexample :
    (⟨[⟨⟨"usd", none, none⟩, ⟨10, 0⟩⟩]⟩ : Inventory).canonical = true
    ∧ parseInventory (formatInventory ⟨[⟨⟨"usd", none, none⟩, ⟨10, 0⟩⟩]⟩) = none := by
  constructor
  · decide
  · decide

/-- C8 (amended): for inventories with canonical content whose lots the
grammar can represent — valid uppercase-alphanumeric currency tokens,
dates within the `YYYY-MM-DD` field widths, and a date only alongside a
cost — parsing the formatted text returns exactly the inventory, and in
particular an inventory equal (`==`) to it. -/
theorem claim_C8 (inv : Inventory) (hwf : wfInventory inv = true) :
    parseInventory (formatInventory inv) = some inv
    ∧ (parseInventory (formatInventory inv)).map (fun j => j.beq inv)
        = some true := by
  have h := parseInventory_format inv hwf
  refine ⟨h, ?_⟩
  rw [h]
  show some (Inventory.beq inv inv) = some true
  rw [inventoryBeq_refl]

/-- C8 witness: a three-lot inventory with plain, costed, and dated lots
round-trips. -/
theorem claim_C8_witness :
    parseInventory (formatInventory
      ⟨[⟨⟨"USD", none, none⟩, ⟨10000, 2⟩⟩,
        ⟨⟨"GOOG", some ⟨⟨70000, 2⟩, "USD"⟩, none⟩, ⟨50, 0⟩⟩,
        ⟨⟨"GOOG", some ⟨⟨70000, 2⟩, "USD"⟩, some ⟨2012, 1, 1⟩⟩, ⟨-7, 0⟩⟩]⟩)
      = some ⟨[⟨⟨"USD", none, none⟩, ⟨10000, 2⟩⟩,
        ⟨⟨"GOOG", some ⟨⟨70000, 2⟩, "USD"⟩, none⟩, ⟨50, 0⟩⟩,
        ⟨⟨"GOOG", some ⟨⟨70000, 2⟩, "USD"⟩, some ⟨2012, 1, 1⟩⟩, ⟨-7, 0⟩⟩]⟩ :=
  (claim_C8 ⟨[⟨⟨"USD", none, none⟩, ⟨10000, 2⟩⟩,
    ⟨⟨"GOOG", some ⟨⟨70000, 2⟩, "USD"⟩, none⟩, ⟨50, 0⟩⟩,
    ⟨⟨"GOOG", some ⟨⟨70000, 2⟩, "USD"⟩, some ⟨2012, 1, 1⟩⟩, ⟨-7, 0⟩⟩]⟩
    (by decide)).1

/-- C9: the human-readable rendering enumerates the stored positions in
insertion order, comma-separated, each rendered as `NUMBER CURRENCY`
optionally followed by the brace-enclosed cost and `/ DATE`. -/
theorem claim_C9 (inv : Inventory) (p q : Position) (rest : List Position) :
    formatInventory inv = joinComma (inv.positions.map formatPosition)
    ∧ formatInventory ⟨[q]⟩ = formatPosition q
    ∧ formatInventory ⟨q :: rest⟩
        = (if rest.isEmpty then formatPosition q
           else formatPosition q ++ ',' :: ' ' :: formatInventory ⟨rest⟩)
    ∧ formatPosition p
        = formatDec p.number ++ ' ' :: p.lot.currency.data
          ++ (match p.lot.cost with
             | none => []
             | some cst =>
               ' ' :: lbrace :: (formatDec cst.number ++ ' ' :: cst.currency.data
                 ++ (match p.lot.acqDate with
                    | none => []
                    | some dt => ' ' :: '/' :: ' ' :: formatDate dt))
                 ++ [rbrace]) := by
  refine ⟨rfl, rfl, ?_, rfl⟩
  cases rest with
  | nil => rfl
  | cons r rs => rfl

/-- C10: quantity equality is numeric on the exact decimal value, not
textual: parsing "10.00 USD", with or without surrounding whitespace,
yields an inventory equal to one built with quantity 10 on the unbooked
USD lot, and appending trailing fractional zeros never changes a decimal's
value. -/
theorem claim_C10 :
    (parseInventory (" 10.00  USD ".data)).map
        (fun j => j.beq ⟨[⟨⟨"USD", none, none⟩, ⟨10, 0⟩⟩]⟩) = some true
    ∧ (parseInventory ("10.00 USD".data)).map
        (fun j => j.beq ⟨[⟨⟨"USD", none, none⟩, ⟨10, 0⟩⟩]⟩) = some true
    ∧ (∀ (m : Int) (e k : Nat),
        Decimal.deq ⟨m * 10 ^ k, e + k⟩ ⟨m, e⟩ = true) := by
  refine ⟨by decide, by decide, ?_⟩
  intro m e k
  rw [Decimal.deq_iff]
  unfold Decimal.toRat
  simp only
  push_cast
  rw [pow_add]
  rw [mul_div_mul_right _ _ (ne_of_gt (Decimal.pow_ten_pos k))]

end Beancount
